/-
Verification of the FX graph-node core (`torch/fx/node.py`).

The Python module defines a mutable `Node` class: each node carries an
argument tree (`args` tuple / `kwargs` dict) whose `Node` leaves are the
node's defs, a `users` "ordered set" (a dict with don't-care values) of
reverse def/use edges, and circular doubly-linked `_prev`/`_next` pointers.

Shallow embedding used here:
  * Node objects are identified by natural-number ids; a graph state
    (`FxState`) is the list of ids of the existing node objects (`dom`)
    together with a total map from ids to node records.  Python object
    identity (`==` on `Node`, dict keys, graph identity) becomes equality
    of ids.
  * Python's recursive `Argument` union becomes the mutual inductive
    `Arg`/`ArgList`/`KwList` (tuples and lists both carry an `ArgList`;
    dicts carry a key/value `KwList`; `slice` carries three arguments;
    other leaves are `Lit`).
  * The `users` dict-as-ordered-set becomes a `List Nat` kept duplicate
    free: `dict.setdefault` becomes `setdefaultUser` (append if missing),
    `dict.pop` (no default) becomes `popUser`, which returns `none` on a
    missing key exactly where Python raises `KeyError`.
  * Python `assert` failures and uncaught `KeyError`s are modelled by
    `Option`: `none` is an aborted call, `some` a completed one.
  * Attribute mutation is explicit state passing; sequential attribute
    writes become sequential `setNode` updates in the same order as the
    Python statements.
-/
import Mathlib

set_option maxHeartbeats 1600000

namespace FxNode

/-- Primitive (non-`Node`, non-container) argument leaves: the
`BaseArgumentTypes` of the source, plus `none_` for Python `None`.
`dtype`/tensor leaves are opaque to the graph core and are represented by
the `opaque_` tag. -/
inductive Lit where
  | str : String → Lit
  | int : Int → Lit
  | bool : Bool → Lit
  | none_ : Lit
  | opaque_ : Nat → Lit
deriving DecidableEq

mutual
/-- The recursive `Argument` union of the source: a base leaf, a `Node`
reference (by id), a tuple, a list, a string-keyed dict, or a slice. -/
inductive Arg where
  | lit : Lit → Arg
  | node : Nat → Arg
  | tup : ArgList → Arg
  | lst : ArgList → Arg
  | dict : KwList → Arg
  | slice : Arg → Arg → Arg → Arg

/-- A sequence of arguments (the payload of a Python tuple or list, and
the type of a node's `args` tuple). -/
inductive ArgList where
  | nil : ArgList
  | cons : Arg → ArgList → ArgList

/-- A string-keyed argument mapping in insertion order (a Python dict,
and the type of a node's `kwargs`). -/
inductive KwList where
  | nil : KwList
  | cons : String → Arg → KwList → KwList
end

/-- A `target` is either a callable (opaque, identified by a number) or a
string, mirroring `Target = Union[Callable[..., Any], str]`. -/
inductive Target where
  | callable : Nat → Target
  | str : String → Target
deriving DecidableEq

/-- Does `isinstance(target, str)` hold? -/
def Target.isStr : Target → Bool
  | .str _ => true
  | .callable _ => false

mutual
/-- `map_arg(a, fn)` from the source: apply `fn` to each `Node` leaf,
rebuilding tuples, lists, dicts (same keys) and slices, and returning
every other leaf unchanged. -/
def map_arg (fn : Nat → Arg) : Arg → Arg
  | .lit l => .lit l
  | .node n => fn n
  | .tup xs => .tup (map_arg_seq fn xs)
  | .lst xs => .lst (map_arg_seq fn xs)
  | .dict kvs => .dict (map_arg_kw fn kvs)
  | .slice a b c => .slice (map_arg fn a) (map_arg fn b) (map_arg fn c)

/-- The tuple/list branch of `map_arg`: elementwise recursion, in order. -/
def map_arg_seq (fn : Nat → Arg) : ArgList → ArgList
  | .nil => .nil
  | .cons a rest => .cons (map_arg fn a) (map_arg_seq fn rest)

/-- The dict branch of `map_arg`: keys kept, values mapped, in order. -/
def map_arg_kw (fn : Nat → Arg) : KwList → KwList
  | .nil => .nil
  | .cons k v rest => .cons k (map_arg fn v) (map_arg_kw fn rest)
end

mutual
/-- The `Node` leaves of an argument tree, in traversal order (with
multiplicity).  This is the trace of `map_arg(a, lambda n: defs.add(n))`
in `_collect_all_defs`. -/
def node_leaves : Arg → List Nat
  | .lit _ => []
  | .node n => [n]
  | .tup xs => node_leaves_seq xs
  | .lst xs => node_leaves_seq xs
  | .dict kvs => node_leaves_kw kvs
  | .slice a b c => node_leaves a ++ node_leaves b ++ node_leaves c

/-- `Node` leaves of an argument sequence. -/
def node_leaves_seq : ArgList → List Nat
  | .nil => []
  | .cons a rest => node_leaves a ++ node_leaves_seq rest

/-- `Node` leaves of a keyword mapping. -/
def node_leaves_kw : KwList → List Nat
  | .nil => []
  | .cons _ v rest => node_leaves v ++ node_leaves_kw rest
end

/-- The def set of an `args`/`kwargs` pair: `Node` leaves of both trees,
deduplicated (Python accumulates them into a `set`; only membership and
element distinctness of the set are ever used, so a duplicate-free list
is a faithful image). -/
def defsOfPair (args : ArgList) (kwargs : KwList) : List Nat :=
  (node_leaves_seq args ++ node_leaves_kw kwargs).dedup

/-- One graph node object: the attribute record of a Python `Node`.
`graphId` stands for the identity of the owning `Graph`; `users` is the
key list of the users dict; `prev`/`next` are the intrasequence links. -/
structure NodeRec where
  graphId : Nat
  name : String
  op : String
  target : Target
  args : ArgList
  kwargs : KwList
  users : List Nat
  type : Option Nat
  prev : Nat
  next : Nat
  erased : Bool

/-- The heap of node objects: `dom` lists the ids of the nodes that
exist, `nodes` gives each id's current attribute record. -/
structure FxState where
  dom : List Nat
  nodes : Nat → NodeRec

/-- Write one node record (a single Python attribute-holding object
being mutated). -/
def upd (f : Nat → NodeRec) (i : Nat) (r : NodeRec) : Nat → NodeRec :=
  fun j => if j = i then r else f j

/-- State after overwriting node `i`'s record with `r`. -/
def setNode (st : FxState) (i : Nat) (r : NodeRec) : FxState :=
  { st with nodes := upd st.nodes i r }

/-- `_collect_all_defs` of the source: the set of `Node` leaves reachable
in the node's own `args` and `kwargs`. -/
def _collect_all_defs (r : NodeRec) : List Nat :=
  defsOfPair r.args r.kwargs

/-- `users.pop(u)` with no default: remove key `u`, or fail (`KeyError`)
when `u` is absent. -/
def popUser (users : List Nat) (u : Nat) : Option (List Nat) :=
  if u ∈ users then some (users.erase u) else none

/-- `users.setdefault(u)`: append key `u` unless already present. -/
def setdefaultUser (users : List Nat) (u : Nat) : List Nat :=
  if u ∈ users then users else users ++ [u]

/-- The removal loop of `_update_args_kwargs`:
`for to_remove in old_defs - new_defs: to_remove.users.pop(self)`.
A missing key aborts (Python `KeyError`). -/
def popLoop (selfId : Nat) : FxState → List Nat → Option FxState
  | st, [] => some st
  | st, n :: rest =>
      match popUser (st.nodes n).users selfId with
      | some us => popLoop selfId (setNode st n { st.nodes n with users := us }) rest
      | none => none

/-- The insertion loop of `_update_args_kwargs`:
`for to_add in new_defs - old_defs: to_add.users.setdefault(self)`. -/
def addLoop (selfId : Nat) : FxState → List Nat → FxState
  | st, [] => st
  | st, n :: rest =>
      addLoop selfId
        (setNode st n { st.nodes n with users := setdefaultUser (st.nodes n).users selfId })
        rest

/-- `_update_args_kwargs(new_args, new_kwargs)` on node `selfId`: record
the old def set, install the new trees, record the new def set, pop
`selfId` from the users of `old - new`, then setdefault `selfId` into the
users of `new - old`.  The set differences are realised as membership
filters over the duplicate-free def lists. -/
def _update_args_kwargs (st : FxState) (selfId : Nat) (new_args : ArgList)
    (new_kwargs : KwList) : Option FxState :=
  let old_defs := _collect_all_defs (st.nodes selfId)
  let st1 := setNode st selfId
    { st.nodes selfId with args := new_args, kwargs := new_kwargs }
  let new_defs := _collect_all_defs (st1.nodes selfId)
  match popLoop selfId st1 (old_defs.filter (fun n => n ∉ new_defs)) with
  | some st2 => some (addLoop selfId st2 (new_defs.filter (fun n => n ∉ old_defs)))
  | none => none

/-- The `args` property setter:
`self._update_args_kwargs(new_args=a, new_kwargs=self._kwargs)`. -/
def set_args (st : FxState) (selfId : Nat) (a : ArgList) : Option FxState :=
  _update_args_kwargs st selfId a (st.nodes selfId).kwargs

/-- The `kwargs` property setter:
`self._update_args_kwargs(new_args=self._args, new_kwargs=k)`. -/
def set_kwargs (st : FxState) (selfId : Nat) (k : KwList) : Option FxState :=
  _update_args_kwargs st selfId (st.nodes selfId).args k

/-- The allowed `op` tags asserted by `Node.__init__`. -/
def legal_op_tags : List String :=
  ["placeholder", "call_method", "call_module", "call_function", "get_attr",
   "output", "root"]

/-- The attribute record `Node.__init__` has written just before the
tuple assignment `self.args, self.kwargs = args, kwargs` runs (with the
`users`/`type`/link/`_erased` writes that follow it also folded in, since
nothing in between reads them): empty `_args`/`_kwargs`, empty `users`,
self-referential links. -/
def init_rec (graph : Nat) (name op : String) (target : Target) (type : Option Nat)
    (newId : Nat) : NodeRec :=
  { graphId := graph, name := name, op := op, target := target,
    args := .nil, kwargs := .nil, users := [], type := type,
    prev := newId, next := newId, erased := false }

/-- The heap right after allocating the fresh node object `newId` with
`init_rec`, before the argument setters run. -/
def init_state0 (st : FxState) (newId graph : Nat) (name op : String)
    (target : Target) (type : Option Nat) : FxState :=
  { dom := st.dom ++ [newId],
    nodes := upd st.nodes newId (init_rec graph name op target type newId) }

/-- `Node.__init__`: assert the op tag, assert a string target for
`call_method`/`call_module`, start from empty `_args`/`_kwargs`, run the
`args` setter then the `kwargs` setter (the tuple assignment
`self.args, self.kwargs = args, kwargs`), then initialise `users` to the
empty dict and the list links to self-reference.  `newId` is the identity
of the freshly allocated object, so it is added to `dom`; assertion
failure yields `none` and no node is produced. -/
def Node_init (st : FxState) (newId : Nat) (graph : Nat) (name op : String)
    (target : Target) (args : ArgList) (kwargs : KwList) (type : Option Nat) :
    Option FxState :=
  if op ∈ legal_op_tags then
    if (op = "call_method" ∨ op = "call_module") ∧ ¬ target.isStr then none
    else
      let st0 : FxState := init_state0 st newId graph name op target type
      match _update_args_kwargs st0 newId args (st0.nodes newId).kwargs with
      | none => none
      | some st1 =>
        match _update_args_kwargs st1 newId (st1.nodes newId).args kwargs with
        | none => none
        | some st2 => some (setNode st2 newId { st2.nodes newId with users := [] })
  else none

/-- `_remove_from_list`: `p, n = self._prev, self._next` then
`p._next, n._prev = n, p` (read both first, then write `p._next`, then
write `n._prev`, in that order). -/
def _remove_from_list (st : FxState) (x : Nat) : FxState :=
  let p := (st.nodes x).prev
  let n := (st.nodes x).next
  let st1 := setNode st p { st.nodes p with next := n }
  setNode st1 n { st1.nodes n with prev := p }

/-- The splice half of `prepend`, run after the detach: read
`p = self._prev`, then perform the two tuple assignments
`p._next, x._prev = x, p` and `x._next, self._prev = self, x` as four
sequential attribute writes. -/
def splice (st1 : FxState) (selfId x : Nat) : FxState :=
  let p := (st1.nodes selfId).prev
  let st2 := setNode st1 p { st1.nodes p with next := x }
  let st3 := setNode st2 x { st2.nodes x with prev := p }
  let st4 := setNode st3 x { st3.nodes x with next := selfId }
  setNode st4 selfId { st4.nodes selfId with prev := x }

/-- `prepend(x)`: assert same graph, detach `x`
(`x._remove_from_list()`), then splice `x` immediately before `self`. -/
def prepend (st : FxState) (selfId x : Nat) : Option FxState :=
  if (st.nodes selfId).graphId = (st.nodes x).graphId then
    some (splice (_remove_from_list st x) selfId x)
  else none

/-- `append(x)`: `self._next.prepend(x)`. -/
def append (st : FxState) (selfId x : Nat) : Option FxState :=
  prepend st (st.nodes selfId).next x

/-- `maybe_replace_node` from `replace_all_uses_with`: the substitution
passed to `map_arg`, replacing the node `selfId` by `replace_with` and
every other node by itself. -/
def maybe_replace_node (selfId replace_with n : Nat) : Arg :=
  if n = selfId then .node replace_with else .node n

/-- The rewrite loop of `replace_all_uses_with`: for each recorded user,
substitute in its current `args`/`kwargs` and commit through
`_update_args_kwargs`. -/
def rauw_loop (selfId replace_with : Nat) : FxState → List Nat → Option FxState
  | st, [] => some st
  | st, use_node :: rest =>
      let fn := maybe_replace_node selfId replace_with
      let new_args := map_arg_seq fn (st.nodes use_node).args
      let new_kwargs := map_arg_kw fn (st.nodes use_node).kwargs
      match _update_args_kwargs st use_node new_args new_kwargs with
      | some st2 => rauw_loop selfId replace_with st2 rest
      | none => none

/-- `replace_all_uses_with(replace_with)`: snapshot
`to_process = list(self.users)` before any mutation, rewrite each user,
assert `len(self.users) == 0`, and return the snapshot (paired here with
the final state). -/
def replace_all_uses_with (st : FxState) (selfId replace_with : Nat) :
    Option (FxState × List Nat) :=
  let to_process := (st.nodes selfId).users
  match rauw_loop selfId replace_with st to_process with
  | some st2 => if (st2.nodes selfId).users = [] then some (st2, to_process) else none
  | none => none

/- Graph-state invariants.  All of them hold automatically for the heap
of a running Python program: `Closed`/`UsersClosed` say that args trees
and users dicts refer to existing node objects (in Python one can only
reference objects that exist), and `UsersNodup` says the users dict has
no duplicate keys (dict keys are unique). -/

/-- Every def of an existing node is an existing node. -/
def Closed (st : FxState) : Prop :=
  ∀ b ∈ st.dom, ∀ a ∈ _collect_all_defs (st.nodes b), a ∈ st.dom

/-- Every recorded user of an existing node is an existing node. -/
def UsersClosed (st : FxState) : Prop :=
  ∀ a ∈ st.dom, ∀ u ∈ (st.nodes a).users, u ∈ st.dom

/-- No users list has duplicate keys. -/
def UsersNodup (st : FxState) : Prop :=
  ∀ a ∈ st.dom, ((st.nodes a).users).Nodup

/-- Def/use symmetry: `B ∈ A.users` iff `A` is a `Node` leaf of `B`'s
own `args`/`kwargs` trees, for all existing nodes `A`, `B`. -/
def DefUse (st : FxState) : Prop :=
  ∀ a ∈ st.dom, ∀ b ∈ st.dom,
    (b ∈ (st.nodes a).users ↔ a ∈ _collect_all_defs (st.nodes b))

/-- The full graph invariant: closedness, users closedness, duplicate
freedom of users dicts, and def/use symmetry. -/
def WF (st : FxState) : Prop :=
  Closed st ∧ UsersClosed st ∧ UsersNodup st ∧ DefUse st

/- Basic facts about the small building blocks. -/

theorem setNode_nodes (st : FxState) (i : Nat) (r : NodeRec) (j : Nat) :
    (setNode st i r).nodes j = if j = i then r else st.nodes j := rfl

theorem setNode_nodes_ne (st : FxState) (i : Nat) (r : NodeRec) {j : Nat}
    (h : j ≠ i) : (setNode st i r).nodes j = st.nodes j := if_neg h

theorem setNode_nodes_self (st : FxState) (i : Nat) (r : NodeRec) :
    (setNode st i r).nodes i = r := if_pos rfl

theorem setNode_dom (st : FxState) (i : Nat) (r : NodeRec) :
    (setNode st i r).dom = st.dom := rfl

theorem mem_setdefaultUser (us : List Nat) (u m : Nat) :
    m ∈ setdefaultUser us u ↔ m ∈ us ∨ m = u := by
  unfold setdefaultUser
  split
  · rename_i h
    constructor
    · exact fun hm => Or.inl hm
    · rintro (hm | rfl)
      · exact hm
      · exact h
  · simp

theorem setdefaultUser_nodup (us : List Nat) (u : Nat) (h : us.Nodup) :
    (setdefaultUser us u).Nodup := by
  unfold setdefaultUser
  split
  · exact h
  · rename_i hm
    simp [List.nodup_append, h, hm]

theorem setdefaultUser_of_mem {us : List Nat} {u : Nat} (h : u ∈ us) :
    setdefaultUser us u = us := if_pos h

theorem setdefaultUser_of_not_mem {us : List Nat} {u : Nat} (h : u ∉ us) :
    setdefaultUser us u = us ++ [u] := if_neg h

theorem defsOfPair_nodup (a : ArgList) (k : KwList) : (defsOfPair a k).Nodup :=
  List.nodup_dedup _

theorem mem_defsOfPair {n : Nat} {a : ArgList} {k : KwList} :
    n ∈ defsOfPair a k ↔ n ∈ node_leaves_seq a ∨ n ∈ node_leaves_kw k := by
  unfold defsOfPair
  rw [List.mem_dedup, List.mem_append]

theorem collect_all_defs_eq (r : NodeRec) :
    _collect_all_defs r = defsOfPair r.args r.kwargs := rfl

/- Characterization of the two users-maintenance loops. -/

theorem FxState.ext' (a b : FxState) (h1 : a.dom = b.dom)
    (h2 : ∀ n, a.nodes n = b.nodes n) : a = b := by
  cases a
  cases b
  simp only [FxState.mk.injEq]
  exact ⟨h1, funext h2⟩

theorem popLoop_char (selfId : Nat) :
    ∀ (l : List Nat) (st : FxState), l.Nodup →
      (∀ n ∈ l, selfId ∈ (st.nodes n).users) →
      popLoop selfId st l =
        some { dom := st.dom,
               nodes := fun m =>
                 if m ∈ l then
                   { st.nodes m with users := (st.nodes m).users.erase selfId }
                 else st.nodes m } := by
  intro l
  induction l with
  | nil =>
      intro st _ _
      refine congrArg some (FxState.ext' _ _ rfl ?_)
      intro m
      dsimp only
      rw [if_neg (List.not_mem_nil m)]
  | cons n rest ih =>
      intro st hnd hall
      have hn : selfId ∈ (st.nodes n).users := hall n (List.mem_cons_self n rest)
      have hnr : n ∉ rest := (List.nodup_cons.1 hnd).1
      have hrest : rest.Nodup := (List.nodup_cons.1 hnd).2
      simp only [popLoop, popUser, if_pos hn]
      set st' := setNode st n { st.nodes n with users := (st.nodes n).users.erase selfId }
        with hst'
      have hall' : ∀ m ∈ rest, selfId ∈ (st'.nodes m).users := by
        intro m hm
        have hne : m ≠ n := fun h => hnr (h ▸ hm)
        rw [hst', setNode_nodes_ne st n _ hne]
        exact hall m (List.mem_cons_of_mem n hm)
      rw [ih st' hrest hall']
      refine congrArg some (FxState.ext' _ _ rfl ?_)
      intro m
      dsimp only
      by_cases hmn : m = n
      · subst hmn
        rw [if_neg hnr, if_pos (List.mem_cons_self m rest)]
        rw [hst', setNode_nodes_self]
      · have hnodes : st'.nodes m = st.nodes m := by
          rw [hst']
          exact setNode_nodes_ne st n _ hmn
        by_cases hmr : m ∈ rest
        · rw [if_pos hmr, if_pos (List.mem_cons_of_mem n hmr), hnodes]
        · have hm2 : m ∉ n :: rest := by
            simp [List.mem_cons, hmn, hmr]
          rw [if_neg hmr, if_neg hm2, hnodes]

theorem popLoop_none (selfId : Nat) :
    ∀ (l : List Nat) (st : FxState), l.Nodup →
      (∃ n ∈ l, selfId ∉ (st.nodes n).users) →
      popLoop selfId st l = none := by
  intro l
  induction l with
  | nil =>
      intro st _ h
      obtain ⟨n, hn, _⟩ := h
      exact absurd hn (List.not_mem_nil n)
  | cons n rest ih =>
      intro st hnd h
      by_cases hn : selfId ∈ (st.nodes n).users
      · obtain ⟨m, hm, hnot⟩ := h
        have hmne : m ≠ n := by
          rintro rfl
          exact hnot hn
        have hmr : m ∈ rest := by
          rcases List.mem_cons.1 hm with h1 | h1
          · exact absurd h1 hmne
          · exact h1
        simp only [popLoop, popUser, if_pos hn]
        apply ih _ (List.nodup_cons.1 hnd).2
        refine ⟨m, hmr, ?_⟩
        rw [setNode_nodes_ne st n _ hmne]
        exact hnot
      · simp only [popLoop, popUser, if_neg hn]

theorem addLoop_char (selfId : Nat) :
    ∀ (l : List Nat) (st : FxState), l.Nodup →
      addLoop selfId st l =
        { dom := st.dom,
          nodes := fun m =>
            if m ∈ l then
              { st.nodes m with users := setdefaultUser (st.nodes m).users selfId }
            else st.nodes m } := by
  intro l
  induction l with
  | nil =>
      intro st _
      refine FxState.ext' _ _ rfl ?_
      intro m
      dsimp only
      rw [if_neg (List.not_mem_nil m)]
      rfl
  | cons n rest ih =>
      intro st hnd
      have hnr : n ∉ rest := (List.nodup_cons.1 hnd).1
      simp only [addLoop]
      set st' := setNode st n
        { st.nodes n with users := setdefaultUser (st.nodes n).users selfId } with hst'
      rw [ih st' (List.nodup_cons.1 hnd).2]
      refine FxState.ext' _ _ rfl ?_
      intro m
      dsimp only
      by_cases hmn : m = n
      · subst hmn
        rw [if_neg hnr, if_pos (List.mem_cons_self m rest)]
        rw [hst', setNode_nodes_self]
      · have hnodes : st'.nodes m = st.nodes m := by
          rw [hst']
          exact setNode_nodes_ne st n _ hmn
        by_cases hmr : m ∈ rest
        · rw [if_pos hmr, if_pos (List.mem_cons_of_mem n hmr), hnodes]
        · have hm2 : m ∉ n :: rest := by
            simp [List.mem_cons, hmn, hmr]
          rw [if_neg hmr, if_neg hm2, hnodes]

/- Characterization of `_update_args_kwargs`. -/

/-- The defs an argument update drops: `old_defs - new_defs`. -/
def removedDefs (st : FxState) (selfId : Nat) (na : ArgList) (nk : KwList) : List Nat :=
  (_collect_all_defs (st.nodes selfId)).filter (fun n => n ∉ defsOfPair na nk)

/-- The defs an argument update gains: `new_defs - old_defs`. -/
def addedDefs (st : FxState) (selfId : Nat) (na : ArgList) (nk : KwList) : List Nat :=
  (defsOfPair na nk).filter (fun n => n ∉ _collect_all_defs (st.nodes selfId))

/-- The state a completed `_update_args_kwargs` leaves behind (proved in
`update_args_kwargs_char`): `selfId`'s trees are replaced, `selfId` is
erased from the users of the dropped defs and appended (if absent) to the
users of the gained defs; every other attribute of every node is kept. -/
def update_result (st : FxState) (selfId : Nat) (na : ArgList) (nk : KwList) : FxState :=
  { dom := st.dom,
    nodes := fun m =>
      { graphId := (st.nodes m).graphId,
        name := (st.nodes m).name,
        op := (st.nodes m).op,
        target := (st.nodes m).target,
        args := if m = selfId then na else (st.nodes m).args,
        kwargs := if m = selfId then nk else (st.nodes m).kwargs,
        users :=
          if m ∈ removedDefs st selfId na nk then (st.nodes m).users.erase selfId
          else if m ∈ addedDefs st selfId na nk then
            setdefaultUser (st.nodes m).users selfId
          else (st.nodes m).users,
        type := (st.nodes m).type,
        prev := (st.nodes m).prev,
        next := (st.nodes m).next,
        erased := (st.nodes m).erased } }

theorem removedDefs_nodup (st : FxState) (selfId : Nat) (na : ArgList) (nk : KwList) :
    (removedDefs st selfId na nk).Nodup :=
  (List.nodup_dedup _).filter _

theorem addedDefs_nodup (st : FxState) (selfId : Nat) (na : ArgList) (nk : KwList) :
    (addedDefs st selfId na nk).Nodup :=
  (List.nodup_dedup _).filter _

theorem mem_removedDefs {st : FxState} {selfId : Nat} {na : ArgList} {nk : KwList}
    {m : Nat} :
    m ∈ removedDefs st selfId na nk ↔
      m ∈ _collect_all_defs (st.nodes selfId) ∧ m ∉ defsOfPair na nk := by
  simp [removedDefs, List.mem_filter]

theorem mem_addedDefs {st : FxState} {selfId : Nat} {na : ArgList} {nk : KwList}
    {m : Nat} :
    m ∈ addedDefs st selfId na nk ↔
      m ∈ defsOfPair na nk ∧ m ∉ _collect_all_defs (st.nodes selfId) := by
  simp [addedDefs, List.mem_filter]

theorem removedDefs_addedDefs_disjoint {st : FxState} {selfId : Nat} {na : ArgList}
    {nk : KwList} {m : Nat} (h1 : m ∈ removedDefs st selfId na nk) :
    m ∉ addedDefs st selfId na nk := by
  intro h2
  exact (mem_addedDefs.1 h2).2 (mem_removedDefs.1 h1).1

theorem update_args_kwargs_char (st : FxState) (selfId : Nat) (na : ArgList)
    (nk : KwList)
    (hpop : ∀ n ∈ removedDefs st selfId na nk, selfId ∈ (st.nodes n).users) :
    _update_args_kwargs st selfId na nk = some (update_result st selfId na nk) := by
  simp only [_update_args_kwargs]
  rw [setNode_nodes_self]
  rw [show _collect_all_defs { st.nodes selfId with args := na, kwargs := nk }
      = defsOfPair na nk from rfl]
  rw [show (_collect_all_defs (st.nodes selfId)).filter (fun n => n ∉ defsOfPair na nk)
      = removedDefs st selfId na nk from rfl]
  rw [show (defsOfPair na nk).filter (fun n => n ∉ _collect_all_defs (st.nodes selfId))
      = addedDefs st selfId na nk from rfl]
  have hpop1 : ∀ n ∈ removedDefs st selfId na nk,
      selfId ∈ ((setNode st selfId
        { st.nodes selfId with args := na, kwargs := nk }).nodes n).users := by
    intro n hn
    by_cases h : n = selfId
    · subst h
      rw [setNode_nodes_self]
      exact hpop _ hn
    · rw [setNode_nodes_ne _ _ _ h]
      exact hpop _ hn
  rw [popLoop_char selfId _ _ (removedDefs_nodup st selfId na nk) hpop1]
  dsimp only
  rw [addLoop_char selfId _ _ (addedDefs_nodup st selfId na nk)]
  refine congrArg some (FxState.ext' _ _ rfl ?_)
  intro m
  dsimp only [update_result]
  by_cases hrem : m ∈ removedDefs st selfId na nk
  · have hadd : m ∉ addedDefs st selfId na nk := removedDefs_addedDefs_disjoint hrem
    rw [if_neg hadd, if_pos hrem, if_pos hrem]
    by_cases hms : m = selfId
    · subst hms
      rw [setNode_nodes_self]
      rw [if_pos rfl, if_pos rfl]
    · rw [setNode_nodes_ne _ _ _ hms]
      rw [if_neg hms, if_neg hms]
  · by_cases hadd : m ∈ addedDefs st selfId na nk
    · rw [if_pos hadd, if_neg hrem, if_neg hrem, if_pos hadd]
      by_cases hms : m = selfId
      · subst hms
        rw [setNode_nodes_self]
        rw [if_pos rfl, if_pos rfl]
      · rw [setNode_nodes_ne _ _ _ hms]
        rw [if_neg hms, if_neg hms]
    · rw [if_neg hadd, if_neg hrem, if_neg hrem, if_neg hadd]
      by_cases hms : m = selfId
      · subst hms
        rw [setNode_nodes_self]
        rw [if_pos rfl, if_pos rfl]
      · rw [setNode_nodes_ne _ _ _ hms]
        rw [if_neg hms, if_neg hms]

theorem update_args_kwargs_none (st : FxState) (selfId : Nat) (na : ArgList)
    (nk : KwList)
    (h : ∃ n ∈ removedDefs st selfId na nk, selfId ∉ (st.nodes n).users) :
    _update_args_kwargs st selfId na nk = none := by
  simp only [_update_args_kwargs]
  rw [setNode_nodes_self]
  rw [show _collect_all_defs { st.nodes selfId with args := na, kwargs := nk }
      = defsOfPair na nk from rfl]
  rw [show (_collect_all_defs (st.nodes selfId)).filter (fun n => n ∉ defsOfPair na nk)
      = removedDefs st selfId na nk from rfl]
  obtain ⟨n, hn, hnot⟩ := h
  rw [popLoop_none selfId _ _ (removedDefs_nodup st selfId na nk) ?wit]
  case wit =>
    refine ⟨n, hn, ?_⟩
    by_cases hns : n = selfId
    · subst hns
      rw [setNode_nodes_self]
      exact hnot
    · rw [setNode_nodes_ne _ _ _ hns]
      exact hnot

theorem update_args_kwargs_some_hpop {st st' : FxState} {selfId : Nat}
    {na : ArgList} {nk : KwList}
    (h : _update_args_kwargs st selfId na nk = some st') :
    ∀ n ∈ removedDefs st selfId na nk, selfId ∈ (st.nodes n).users := by
  by_contra hc
  push_neg at hc
  rw [update_args_kwargs_none st selfId na nk hc] at h
  exact Option.noConfusion h

theorem update_args_kwargs_some_eq {st st' : FxState} {selfId : Nat}
    {na : ArgList} {nk : KwList}
    (h : _update_args_kwargs st selfId na nk = some st') :
    st' = update_result st selfId na nk := by
  have hchar := update_args_kwargs_char st selfId na nk
    (update_args_kwargs_some_hpop h)
  rw [h] at hchar
  exact Option.some.inj hchar

/- Field-level view of `update_result`. -/

theorem update_result_dom (st : FxState) (selfId : Nat) (na : ArgList) (nk : KwList) :
    (update_result st selfId na nk).dom = st.dom := rfl

theorem update_result_args (st : FxState) (selfId : Nat) (na : ArgList) (nk : KwList)
    (m : Nat) : ((update_result st selfId na nk).nodes m).args
      = if m = selfId then na else (st.nodes m).args := rfl

theorem update_result_kwargs (st : FxState) (selfId : Nat) (na : ArgList) (nk : KwList)
    (m : Nat) : ((update_result st selfId na nk).nodes m).kwargs
      = if m = selfId then nk else (st.nodes m).kwargs := rfl

theorem update_result_users (st : FxState) (selfId : Nat) (na : ArgList) (nk : KwList)
    (m : Nat) : ((update_result st selfId na nk).nodes m).users
      = if m ∈ removedDefs st selfId na nk then (st.nodes m).users.erase selfId
        else if m ∈ addedDefs st selfId na nk then
          setdefaultUser (st.nodes m).users selfId
        else (st.nodes m).users := rfl

theorem update_result_prev (st : FxState) (selfId : Nat) (na : ArgList) (nk : KwList)
    (m : Nat) : ((update_result st selfId na nk).nodes m).prev = (st.nodes m).prev := rfl

theorem update_result_next (st : FxState) (selfId : Nat) (na : ArgList) (nk : KwList)
    (m : Nat) : ((update_result st selfId na nk).nodes m).next = (st.nodes m).next := rfl

theorem update_result_defs (st : FxState) (selfId : Nat) (na : ArgList) (nk : KwList)
    (m : Nat) : _collect_all_defs ((update_result st selfId na nk).nodes m)
      = if m = selfId then defsOfPair na nk
        else _collect_all_defs (st.nodes m) := by
  by_cases hm : m = selfId
  · rw [if_pos hm]
    rw [show _collect_all_defs ((update_result st selfId na nk).nodes m)
        = defsOfPair ((update_result st selfId na nk).nodes m).args
            ((update_result st selfId na nk).nodes m).kwargs from rfl]
    rw [update_result_args, update_result_kwargs, if_pos hm, if_pos hm]
  · rw [if_neg hm]
    rw [show _collect_all_defs ((update_result st selfId na nk).nodes m)
        = defsOfPair ((update_result st selfId na nk).nodes m).args
            ((update_result st selfId na nk).nodes m).kwargs from rfl]
    rw [update_result_args, update_result_kwargs, if_neg hm, if_neg hm]
    rfl

/-- `_update_args_kwargs` preserves the graph invariant: given a
well-formed state, a mutating node that exists, and new trees whose
`Node` leaves exist, the call completes and the result is well-formed. -/
theorem WF_update (st : FxState) (selfId : Nat) (na : ArgList) (nk : KwList)
    (hWF : WF st) (hself : selfId ∈ st.dom)
    (hdefs : ∀ n ∈ defsOfPair na nk, n ∈ st.dom) :
    _update_args_kwargs st selfId na nk = some (update_result st selfId na nk) ∧
      WF (update_result st selfId na nk) := by
  obtain ⟨hC, hUC, hUN, hDU⟩ := hWF
  have hpop : ∀ n ∈ removedDefs st selfId na nk, selfId ∈ (st.nodes n).users := by
    intro n hn
    have hold := (mem_removedDefs.1 hn).1
    have hdom : n ∈ st.dom := hC selfId hself n hold
    exact (hDU n hdom selfId hself).2 hold
  refine ⟨update_args_kwargs_char st selfId na nk hpop, ?_, ?_, ?_, ?_⟩
  · -- Closed
    intro b hb a ha
    rw [update_result_defs] at ha
    by_cases hbs : b = selfId
    · rw [if_pos hbs] at ha
      exact hdefs a ha
    · rw [if_neg hbs] at ha
      exact hC b hb a ha
  · -- UsersClosed
    intro a ha u hu
    rw [update_result_users] at hu
    split at hu
    · exact hUC a ha u (List.mem_of_mem_erase hu)
    · split at hu
      · rcases (mem_setdefaultUser _ _ _).1 hu with h | h
        · exact hUC a ha u h
        · exact h ▸ hself
      · exact hUC a ha u hu
  · -- UsersNodup
    intro a ha
    rw [update_result_users]
    split
    · exact (hUN a ha).erase selfId
    · split
      · exact setdefaultUser_nodup _ _ (hUN a ha)
      · exact hUN a ha
  · -- DefUse
    intro a ha b hb
    rw [update_result_users, update_result_defs]
    by_cases hbs : b = selfId
    · subst hbs
      rw [if_pos rfl]
      by_cases hrem : a ∈ removedDefs st b na nk
      · rw [if_pos hrem]
        have h1 : b ∉ (st.nodes a).users.erase b := fun hmem =>
          (((hUN a ha).mem_erase_iff).1 hmem).1 rfl
        have h2 : a ∉ defsOfPair na nk := (mem_removedDefs.1 hrem).2
        exact iff_of_false h1 h2
      · rw [if_neg hrem]
        by_cases hadd : a ∈ addedDefs st b na nk
        · rw [if_pos hadd]
          have h1 : b ∈ setdefaultUser (st.nodes a).users b :=
            (mem_setdefaultUser _ _ _).2 (Or.inr rfl)
          exact iff_of_true h1 (mem_addedDefs.1 hadd).1
        · rw [if_neg hadd]
          have hold := hDU a ha b hb
          constructor
          · intro hmem
            have haold := hold.1 hmem
            by_contra hnew
            exact hrem (mem_removedDefs.2 ⟨haold, hnew⟩)
          · intro hnew
            refine hold.2 ?_
            by_contra haold
            exact hadd (mem_addedDefs.2 ⟨hnew, haold⟩)
    · rw [if_neg hbs]
      have hbase := hDU a ha b hb
      by_cases hrem : a ∈ removedDefs st selfId na nk
      · rw [if_pos hrem]
        rw [List.mem_erase_of_ne hbs]
        exact hbase
      · rw [if_neg hrem]
        by_cases hadd : a ∈ addedDefs st selfId na nk
        · rw [if_pos hadd, mem_setdefaultUser]
          constructor
          · rintro (h | h)
            · exact hbase.1 h
            · exact absurd h hbs
          · exact fun h => Or.inl (hbase.2 h)
        · rw [if_neg hadd]
          exact hbase

/- Characterization of `Node.__init__`. -/

theorem upd_self (f : Nat → NodeRec) (i : Nat) (r : NodeRec) : upd f i r i = r :=
  if_pos rfl

theorem setNode_self (st : FxState) (i : Nat) : setNode st i (st.nodes i) = st := by
  refine FxState.ext' _ _ rfl ?_
  intro j
  rw [setNode_nodes]
  by_cases h : j = i
  · rw [if_pos h, h]
  · rw [if_neg h]

theorem filter_not_mem_eq_nil {l1 l2 : List Nat} (h : ∀ a ∈ l1, a ∈ l2) :
    l1.filter (fun n => n ∉ l2) = [] := by
  rw [List.filter_eq_nil_iff]
  intro a ha
  simp [h a ha]

theorem defsOfPair_nil_sub (args : ArgList) (kwargs : KwList) :
    ∀ a ∈ defsOfPair args .nil, a ∈ defsOfPair args kwargs := by
  intro a ha
  rcases mem_defsOfPair.1 ha with h | h
  · exact mem_defsOfPair.2 (Or.inl h)
  · exact absurd h (List.not_mem_nil a)

theorem init_state0_nodes_self (st : FxState) (newId graph : Nat) (name op : String)
    (target : Target) (ty : Option Nat) :
    (init_state0 st newId graph name op target ty).nodes newId
      = init_rec graph name op target ty newId :=
  upd_self _ _ _

theorem init_state0_nodes_ne (st : FxState) (newId graph : Nat) (name op : String)
    (target : Target) (ty : Option Nat) {u : Nat} (h : u ≠ newId) :
    (init_state0 st newId graph name op target ty).nodes u = st.nodes u :=
  if_neg h

/-- Running `Node.__init__` when both assertions pass: the heap gains the
fresh record, the two setter calls complete (the removal loops are empty
because the def set only grows during construction), and `users` is then
overwritten with the empty dict. -/
theorem Node_init_run (st : FxState) (newId graph : Nat) (name op : String)
    (target : Target) (args : ArgList) (kwargs : KwList) (ty : Option Nat)
    (hop : op ∈ legal_op_tags)
    (htgt : ¬((op = "call_method" ∨ op = "call_module") ∧ ¬ target.isStr)) :
    Node_init st newId graph name op target args kwargs ty =
      some (setNode
        (update_result (update_result (init_state0 st newId graph name op target ty)
          newId args .nil) newId args kwargs)
        newId
        { (update_result (update_result (init_state0 st newId graph name op target ty)
            newId args .nil) newId args kwargs).nodes newId with users := [] }) := by
  have hrem0 : removedDefs (init_state0 st newId graph name op target ty)
      newId args .nil = [] := by
    unfold removedDefs
    rw [init_state0_nodes_self]
    rfl
  have hpop0 : ∀ n ∈ removedDefs (init_state0 st newId graph name op target ty)
      newId args .nil, newId ∈ ((init_state0 st newId graph name op target ty).nodes n).users := by
    rw [hrem0]
    intro n hn
    exact absurd hn (List.not_mem_nil n)
  have hrem1 : removedDefs (update_result (init_state0 st newId graph name op target ty)
      newId args .nil) newId args kwargs = [] := by
    unfold removedDefs
    rw [update_result_defs, if_pos rfl]
    exact filter_not_mem_eq_nil (defsOfPair_nil_sub args kwargs)
  have hpop1 : ∀ n ∈ removedDefs (update_result (init_state0 st newId graph name op target ty)
      newId args .nil) newId args kwargs,
      newId ∈ ((update_result (init_state0 st newId graph name op target ty)
        newId args .nil).nodes n).users := by
    rw [hrem1]
    intro n hn
    exact absurd hn (List.not_mem_nil n)
  simp only [Node_init]
  rw [if_pos hop, if_neg htgt]
  rw [init_state0_nodes_self]
  rw [show (init_rec graph name op target ty newId).kwargs = KwList.nil from rfl]
  rw [update_args_kwargs_char _ newId args KwList.nil hpop0]
  dsimp only
  rw [update_result_args, if_pos rfl]
  rw [update_args_kwargs_char _ newId args kwargs hpop1]

/-- Inversion: a successful construction implies both assertions passed. -/
theorem Node_init_some_guards {st st' : FxState} {newId graph : Nat}
    {name op : String} {target : Target} {args : ArgList} {kwargs : KwList}
    {ty : Option Nat}
    (h : Node_init st newId graph name op target args kwargs ty = some st') :
    op ∈ legal_op_tags ∧ ¬((op = "call_method" ∨ op = "call_module") ∧ ¬ target.isStr) := by
  by_cases hop : op ∈ legal_op_tags
  · by_cases htgt : (op = "call_method" ∨ op = "call_module") ∧ ¬ target.isStr
    · rw [Node_init, if_pos hop, if_pos htgt] at h
      exact Option.noConfusion h
    · exact ⟨hop, htgt⟩
  · rw [Node_init, if_neg hop] at h
    exact Option.noConfusion h

theorem mem_dom_of_append {u newId : Nat} {l : List Nat} (h : u ∈ l ++ [newId])
    (hne : u ≠ newId) : u ∈ l := by
  rcases List.mem_append.1 h with h1 | h1
  · exact h1
  · rcases List.mem_singleton.1 h1 with rfl
    exact absurd rfl hne

/-- The freshly allocated heap is well-formed: the new node has no args,
no kwargs and no users, and nothing existing can mention an id that did
not exist. -/
theorem WF_init_state0 (st : FxState) (newId graph : Nat) (name op : String)
    (target : Target) (ty : Option Nat) (hWF : WF st) (hfresh : newId ∉ st.dom) :
    WF (init_state0 st newId graph name op target ty) := by
  obtain ⟨hC, hUC, hUN, hDU⟩ := hWF
  have hdom : (init_state0 st newId graph name op target ty).dom = st.dom ++ [newId] := rfl
  refine ⟨?_, ?_, ?_, ?_⟩
  · intro b hb a ha
    rw [hdom] at hb ⊢
    by_cases hbn : b = newId
    · subst hbn
      rw [init_state0_nodes_self] at ha
      exact absurd ha (List.not_mem_nil a)
    · rw [init_state0_nodes_ne _ _ _ _ _ _ _ hbn] at ha
      exact List.mem_append.2 (Or.inl (hC b (mem_dom_of_append hb hbn) a ha))
  · intro a ha u hu
    rw [hdom] at ha ⊢
    by_cases han : a = newId
    · subst han
      rw [init_state0_nodes_self] at hu
      exact absurd hu (List.not_mem_nil u)
    · rw [init_state0_nodes_ne _ _ _ _ _ _ _ han] at hu
      exact List.mem_append.2 (Or.inl (hUC a (mem_dom_of_append ha han) u hu))
  · intro a ha
    by_cases han : a = newId
    · subst han
      rw [init_state0_nodes_self]
      exact List.nodup_nil
    · rw [init_state0_nodes_ne _ _ _ _ _ _ _ han]
      exact hUN a (mem_dom_of_append ha han)
  · intro a ha b hb
    rw [hdom] at ha hb
    by_cases han : a = newId
    · subst han
      rw [init_state0_nodes_self]
      refine iff_of_false (List.not_mem_nil b) ?_
      by_cases hbn : b = a
      · rw [hbn, init_state0_nodes_self]
        exact List.not_mem_nil a
      · rw [init_state0_nodes_ne _ _ _ _ _ _ _ hbn]
        intro hmem
        exact hfresh (hC b (mem_dom_of_append hb hbn) a hmem)
    · rw [init_state0_nodes_ne _ _ _ _ _ _ _ han]
      by_cases hbn : b = newId
      · rw [hbn, init_state0_nodes_self]
        refine iff_of_false ?_ (List.not_mem_nil a)
        intro hmem
        exact hfresh (hUC a (mem_dom_of_append ha han) newId hmem)
      · rw [init_state0_nodes_ne _ _ _ _ _ _ _ hbn]
        exact hDU a (mem_dom_of_append ha han) b (mem_dom_of_append hb hbn)

/-- A successful construction on a well-formed heap with a fresh id and
existing argument leaves yields a well-formed heap whose node list gained
exactly the new id. -/
theorem WF_init {st st' : FxState} {newId graph : Nat} {name op : String}
    {target : Target} {args : ArgList} {kwargs : KwList} {ty : Option Nat}
    (hWF : WF st) (hfresh : newId ∉ st.dom)
    (hargs : ∀ n ∈ defsOfPair args kwargs, n ∈ st.dom)
    (h : Node_init st newId graph name op target args kwargs ty = some st') :
    WF st' ∧ st'.dom = st.dom ++ [newId] := by
  obtain ⟨hop, htgt⟩ := Node_init_some_guards h
  rw [Node_init_run st newId graph name op target args kwargs ty hop htgt] at h
  have hst0 := WF_init_state0 st newId graph name op target ty hWF hfresh
  have hdom0 : (init_state0 st newId graph name op target ty).dom = st.dom ++ [newId] := rfl
  have hself0 : newId ∈ (init_state0 st newId graph name op target ty).dom := by
    rw [hdom0]
    exact List.mem_append.2 (Or.inr (List.mem_singleton.2 rfl))
  have hdefs0 : ∀ n ∈ defsOfPair args KwList.nil,
      n ∈ (init_state0 st newId graph name op target ty).dom := by
    intro n hn
    rw [hdom0]
    exact List.mem_append.2 (Or.inl (hargs n (defsOfPair_nil_sub args kwargs n hn)))
  obtain ⟨-, hWF1⟩ := WF_update _ newId args KwList.nil hst0 hself0 hdefs0
  set st1 := update_result (init_state0 st newId graph name op target ty) newId args
    KwList.nil with hst1def
  have hdom1 : st1.dom = st.dom ++ [newId] := hdom0
  have hself1 : newId ∈ st1.dom := by
    rw [hdom1]
    exact List.mem_append.2 (Or.inr (List.mem_singleton.2 rfl))
  have hdefs1 : ∀ n ∈ defsOfPair args kwargs, n ∈ st1.dom := by
    intro n hn
    rw [hdom1]
    exact List.mem_append.2 (Or.inl (hargs n hn))
  obtain ⟨-, hWF2⟩ := WF_update st1 newId args kwargs hWF1 hself1 hdefs1
  set st2 := update_result st1 newId args kwargs with hst2def
  obtain ⟨hC2, hUC2, hUN2, hDU2⟩ := hWF2
  have hdom2 : st2.dom = st.dom ++ [newId] := hdom1
  have hself2 : newId ∈ st2.dom := by
    rw [hdom2]
    exact List.mem_append.2 (Or.inr (List.mem_singleton.2 rfl))
  have husers2 : (st2.nodes newId).users = [] := by
    rw [List.eq_nil_iff_forall_not_mem]
    intro u hu
    have hud : u ∈ st2.dom := hUC2 newId hself2 u hu
    have hdef : newId ∈ _collect_all_defs (st2.nodes u) :=
      (hDU2 newId hself2 u hud).1 hu
    by_cases hun : u = newId
    · subst hun
      rw [hst2def, update_result_defs, if_pos rfl] at hdef
      exact hfresh (hargs u hdef)
    · rw [hst2def, update_result_defs, if_neg hun, hst1def, update_result_defs,
        if_neg hun, init_state0_nodes_ne _ _ _ _ _ _ _ hun] at hdef
      have hus : u ∈ st.dom := by
        rw [hdom2] at hud
        exact mem_dom_of_append hud hun
      exact hfresh (hWF.1 u hus newId hdef)
  have hrec : { st2.nodes newId with users := ([] : List Nat) } = st2.nodes newId := by
    rw [← husers2]
  rw [hrec, setNode_self] at h
  have hst' : st' = st2 := (Option.some.inj h).symm
  rw [hst']
  exact ⟨⟨hC2, hUC2, hUN2, hDU2⟩, hdom2⟩

/- The `Node` leaves of a substituted tree: `map_arg` with
`maybe_replace_node` renames every leaf through `n ↦ if n = s then r else n`
and changes nothing else. -/

theorem maybe_replace_node_eq (s r n : Nat) :
    maybe_replace_node s r n = .node (if n = s then r else n) := by
  unfold maybe_replace_node
  by_cases h : n = s
  · rw [if_pos h, if_pos h]
  · rw [if_neg h, if_neg h]

mutual
theorem node_leaves_subst (s r : Nat) (a : Arg) :
    node_leaves (map_arg (maybe_replace_node s r) a)
      = (node_leaves a).map (fun n => if n = s then r else n) := by
  cases a with
  | lit l => rfl
  | node n =>
      rw [show map_arg (maybe_replace_node s r) (.node n) = maybe_replace_node s r n
        from rfl]
      rw [maybe_replace_node_eq]
      rfl
  | tup xs => exact node_leaves_subst_seq s r xs
  | lst xs => exact node_leaves_subst_seq s r xs
  | dict kvs => exact node_leaves_subst_kw s r kvs
  | slice a b c =>
      show node_leaves (map_arg (maybe_replace_node s r) a)
          ++ node_leaves (map_arg (maybe_replace_node s r) b)
          ++ node_leaves (map_arg (maybe_replace_node s r) c) = _
      rw [node_leaves_subst s r a, node_leaves_subst s r b, node_leaves_subst s r c]
      show _ = (node_leaves a ++ node_leaves b ++ node_leaves c).map
        (fun n => if n = s then r else n)
      rw [List.map_append, List.map_append]

theorem node_leaves_subst_seq (s r : Nat) (xs : ArgList) :
    node_leaves_seq (map_arg_seq (maybe_replace_node s r) xs)
      = (node_leaves_seq xs).map (fun n => if n = s then r else n) := by
  cases xs with
  | nil => rfl
  | cons a rest =>
      show node_leaves (map_arg (maybe_replace_node s r) a)
          ++ node_leaves_seq (map_arg_seq (maybe_replace_node s r) rest) = _
      rw [node_leaves_subst s r a, node_leaves_subst_seq s r rest]
      show _ = (node_leaves a ++ node_leaves_seq rest).map
        (fun n => if n = s then r else n)
      rw [List.map_append]

theorem node_leaves_subst_kw (s r : Nat) (kvs : KwList) :
    node_leaves_kw (map_arg_kw (maybe_replace_node s r) kvs)
      = (node_leaves_kw kvs).map (fun n => if n = s then r else n) := by
  cases kvs with
  | nil => rfl
  | cons k v rest =>
      show node_leaves (map_arg (maybe_replace_node s r) v)
          ++ node_leaves_kw (map_arg_kw (maybe_replace_node s r) rest) = _
      rw [node_leaves_subst s r v, node_leaves_subst_kw s r rest]
      show _ = (node_leaves v ++ node_leaves_kw rest).map
        (fun n => if n = s then r else n)
      rw [List.map_append]
end

theorem mem_defsOfPair_subst {s r m : Nat} {a : ArgList} {k : KwList} :
    m ∈ defsOfPair (map_arg_seq (maybe_replace_node s r) a)
        (map_arg_kw (maybe_replace_node s r) k) ↔
      ∃ n ∈ defsOfPair a k, (if n = s then r else n) = m := by
  unfold defsOfPair
  rw [List.mem_dedup, List.mem_append, node_leaves_subst_seq, node_leaves_subst_kw]
  constructor
  · rintro (h | h)
    · obtain ⟨n, hn, hm⟩ := List.mem_map.1 h
      exact ⟨n, List.mem_dedup.2 (List.mem_append.2 (Or.inl hn)), hm⟩
    · obtain ⟨n, hn, hm⟩ := List.mem_map.1 h
      exact ⟨n, List.mem_dedup.2 (List.mem_append.2 (Or.inr hn)), hm⟩
  · rintro ⟨n, hn, hm⟩
    rcases List.mem_append.1 (List.mem_dedup.1 hn) with h | h
    · exact Or.inl (List.mem_map.2 ⟨n, h, hm⟩)
    · exact Or.inr (List.mem_map.2 ⟨n, h, hm⟩)

/-- The dropped defs of a `replace_all_uses_with` step are exactly the
replaced node: `old - new = {s}` once `s` really is a def of the user. -/
theorem removedDefs_subst {st : FxState} {u s r : Nat} (hrs : r ≠ s)
    (hsd : s ∈ _collect_all_defs (st.nodes u)) (m : Nat) :
    m ∈ removedDefs st u (map_arg_seq (maybe_replace_node s r) (st.nodes u).args)
        (map_arg_kw (maybe_replace_node s r) (st.nodes u).kwargs) ↔ m = s := by
  rw [mem_removedDefs]
  constructor
  · rintro ⟨hold, hnew⟩
    by_contra hms
    refine hnew (mem_defsOfPair_subst.2 ⟨m, hold, ?_⟩)
    exact if_neg hms
  · rintro rfl
    refine ⟨hsd, ?_⟩
    intro hnew
    obtain ⟨n, hn, hm⟩ := mem_defsOfPair_subst.1 hnew
    by_cases hns : n = m
    · rw [if_pos hns] at hm
      exact hrs hm
    · rw [if_neg hns] at hm
      exact hns hm

/-- The gained defs of a `replace_all_uses_with` step are at most the
replacement: `new - old = {r}` when `r` was not already a def, else empty. -/
theorem addedDefs_subst {st : FxState} {u s r : Nat}
    (hsd : s ∈ _collect_all_defs (st.nodes u)) (m : Nat) :
    m ∈ addedDefs st u (map_arg_seq (maybe_replace_node s r) (st.nodes u).args)
        (map_arg_kw (maybe_replace_node s r) (st.nodes u).kwargs) ↔
      m = r ∧ r ∉ _collect_all_defs (st.nodes u) := by
  rw [mem_addedDefs]
  constructor
  · rintro ⟨hnew, hold⟩
    obtain ⟨n, hn, hm⟩ := mem_defsOfPair_subst.1 hnew
    by_cases hns : n = s
    · rw [if_pos hns] at hm
      subst hm
      exact ⟨rfl, hold⟩
    · rw [if_neg hns] at hm
      exact absurd (hm ▸ hn) hold
  · rintro ⟨rfl, hold⟩
    exact ⟨mem_defsOfPair_subst.2 ⟨s, hsd, if_pos rfl⟩, hold⟩

/- The rewrite loop of `replace_all_uses_with`. -/

theorem rauw_loop_cons_some (s r u : Nat) (R : List Nat) (st st1 : FxState)
    (h : _update_args_kwargs st u
        (map_arg_seq (maybe_replace_node s r) (st.nodes u).args)
        (map_arg_kw (maybe_replace_node s r) (st.nodes u).kwargs) = some st1) :
    rauw_loop s r st (u :: R) = rauw_loop s r st1 R := by
  simp only [rauw_loop]
  rw [h]

theorem rauw_loop_cons_none (s r u : Nat) (R : List Nat) (st : FxState)
    (h : _update_args_kwargs st u
        (map_arg_seq (maybe_replace_node s r) (st.nodes u).args)
        (map_arg_kw (maybe_replace_node s r) (st.nodes u).kwargs) = none) :
    rauw_loop s r st (u :: R) = none := by
  simp only [rauw_loop]
  rw [h]

theorem subst_defs_sub {st : FxState} {u s r : Nat} (hC : Closed st)
    (hu : u ∈ st.dom) (hr : r ∈ st.dom) :
    ∀ n ∈ defsOfPair (map_arg_seq (maybe_replace_node s r) (st.nodes u).args)
        (map_arg_kw (maybe_replace_node s r) (st.nodes u).kwargs), n ∈ st.dom := by
  intro n hn
  obtain ⟨nn, hnn, hn2⟩ := mem_defsOfPair_subst.1 hn
  by_cases hns : nn = s
  · rw [if_pos hns] at hn2
    rw [← hn2]
    exact hr
  · rw [if_neg hns] at hn2
    rw [← hn2]
    exact hC u hu nn hnn

/-- Each pass of the rewrite loop keeps the graph well-formed, whatever
the replacement is. -/
theorem rauw_loop_WF (s r : Nat) :
    ∀ (R : List Nat) (st st' : FxState), WF st → r ∈ st.dom →
      (∀ u ∈ R, u ∈ st.dom) → rauw_loop s r st R = some st' →
      WF st' ∧ st'.dom = st.dom := by
  intro R
  induction R with
  | nil =>
      intro st st' hWF _ _ h
      have : st = st' := Option.some.inj h
      rw [← this]
      exact ⟨hWF, rfl⟩
  | cons u R ih =>
      intro st st' hWF hr hdom h
      have hu : u ∈ st.dom := hdom u (List.mem_cons_self u R)
      obtain ⟨heq, hWF1⟩ := WF_update st u _ _ hWF hu (subst_defs_sub hWF.1 hu hr)
      rw [rauw_loop_cons_some s r u R st _ heq] at h
      have hres := ih (update_result st u
          (map_arg_seq (maybe_replace_node s r) (st.nodes u).args)
          (map_arg_kw (maybe_replace_node s r) (st.nodes u).kwargs)) st' hWF1 hr
        (fun v hv => hdom v (List.mem_cons_of_mem u hv)) h
      exact hres

/-- Full characterization of the rewrite loop for a replacement `r`
distinct from the replaced node `s`, starting from the snapshot
`R = s.users`: the loop completes; `s.users` drains to empty; every
processed user's trees are the substitution image of its original trees;
nothing else's trees change; only `s`'s and `r`'s users dicts change; and
`r.users` ends up holding exactly its old keys plus the snapshot. -/
theorem rauw_loop_char (s r : Nat) (hrs : r ≠ s) :
    ∀ (R : List Nat) (st : FxState), WF st → s ∈ st.dom → r ∈ st.dom →
      (st.nodes s).users = R →
      ∃ st', rauw_loop s r st R = some st' ∧ WF st' ∧ st'.dom = st.dom ∧
        (st'.nodes s).users = [] ∧
        (∀ u ∈ R,
          (st'.nodes u).args = map_arg_seq (maybe_replace_node s r) (st.nodes u).args ∧
          (st'.nodes u).kwargs = map_arg_kw (maybe_replace_node s r) (st.nodes u).kwargs) ∧
        (∀ w, w ∉ R →
          (st'.nodes w).args = (st.nodes w).args ∧
          (st'.nodes w).kwargs = (st.nodes w).kwargs) ∧
        (∀ w, w ≠ s → w ≠ r → (st'.nodes w).users = (st.nodes w).users) ∧
        (∀ n, n ∈ (st'.nodes r).users ↔ n ∈ (st.nodes r).users ∨ n ∈ R) := by
  intro R
  induction R with
  | nil =>
      intro st hWF hs hr husers
      refine ⟨st, rfl, hWF, rfl, husers, ?_, ?_, ?_, ?_⟩
      · intro u hu
        exact absurd hu (List.not_mem_nil u)
      · intro w _
        exact ⟨rfl, rfl⟩
      · intro w _ _
        rfl
      · intro n
        simp
  | cons u R' ih =>
      intro st hWF hs hr husers
      obtain ⟨hC, hUC, hUN, hDU⟩ := hWF
      have hu_mem : u ∈ (st.nodes s).users := by
        rw [husers]
        exact List.mem_cons_self u R'
      have hu_dom : u ∈ st.dom := hUC s hs u hu_mem
      have hs_def : s ∈ _collect_all_defs (st.nodes u) := (hDU s hs u hu_dom).1 hu_mem
      have hnodup : (u :: R').Nodup := by
        rw [← husers]
        exact hUN s hs
      have hune : u ∉ R' := (List.nodup_cons.1 hnodup).1
      obtain ⟨heq, hWF1⟩ := WF_update st u
        (map_arg_seq (maybe_replace_node s r) (st.nodes u).args)
        (map_arg_kw (maybe_replace_node s r) (st.nodes u).kwargs)
        ⟨hC, hUC, hUN, hDU⟩ hu_dom (subst_defs_sub hC hu_dom hr)
      set na := map_arg_seq (maybe_replace_node s r) (st.nodes u).args with hna
      set nk := map_arg_kw (maybe_replace_node s r) (st.nodes u).kwargs with hnk
      set st1 := update_result st u na nk with hst1
      have hsrem : s ∈ removedDefs st u na nk := (removedDefs_subst hrs hs_def s).2 rfl
      have husers1_s : (st1.nodes s).users = R' := by
        rw [hst1, update_result_users, if_pos hsrem, husers, List.erase_cons_head]
      have husers1_frame : ∀ w, w ≠ s → w ≠ r →
          (st1.nodes w).users = (st.nodes w).users := by
        intro w hws hwr
        rw [hst1, update_result_users,
          if_neg (fun hmem => hws ((removedDefs_subst hrs hs_def w).1 hmem)),
          if_neg (fun hmem => hwr ((addedDefs_subst hs_def w).1 hmem).1)]
      have husers1_r : ∀ n, n ∈ (st1.nodes r).users ↔
          n ∈ (st.nodes r).users ∨ n = u := by
        intro n
        have hrrem : r ∉ removedDefs st u na nk := fun hmem =>
          hrs ((removedDefs_subst hrs hs_def r).1 hmem)
        by_cases hro : r ∈ _collect_all_defs (st.nodes u)
        · have hradd : r ∉ addedDefs st u na nk := fun hmem =>
            ((addedDefs_subst hs_def r).1 hmem).2 hro
          rw [hst1, update_result_users, if_neg hrrem, if_neg hradd]
          have huold : u ∈ (st.nodes r).users := (hDU r hr u hu_dom).2 hro
          constructor
          · exact fun h => Or.inl h
          · rintro (h | rfl)
            · exact h
            · exact huold
        · have hradd : r ∈ addedDefs st u na nk := (addedDefs_subst hs_def r).2 ⟨rfl, hro⟩
          rw [hst1, update_result_users, if_neg hrrem, if_pos hradd,
            mem_setdefaultUser]
      have hargs1_u : (st1.nodes u).args = na ∧ (st1.nodes u).kwargs = nk := by
        rw [hst1, update_result_args, update_result_kwargs, if_pos rfl, if_pos rfl]
        exact ⟨rfl, rfl⟩
      have hargs1_frame : ∀ w, w ≠ u →
          (st1.nodes w).args = (st.nodes w).args ∧
          (st1.nodes w).kwargs = (st.nodes w).kwargs := by
        intro w hw
        rw [hst1, update_result_args, update_result_kwargs, if_neg hw, if_neg hw]
        exact ⟨rfl, rfl⟩
      obtain ⟨st', hloop, hWF', hdom', husers'_s, hproc', hframe_args', hframe_users',
        husers'_r⟩ := ih st1 hWF1 hs hr husers1_s
      refine ⟨st', ?_, hWF', hdom', husers'_s, ?_, ?_, ?_, ?_⟩
      · rw [rauw_loop_cons_some s r u R' st st1 heq]
        exact hloop
      · -- processed users get substituted trees
        intro v hv
        rcases List.mem_cons.1 hv with rfl | hv'
        · obtain ⟨ha, hk⟩ := hframe_args' v hune
          rw [ha, hk]
          exact hargs1_u
        · have hvne : v ≠ u := fun h => hune (h ▸ hv')
          obtain ⟨ha, hk⟩ := hproc' v hv'
          obtain ⟨ha1, hk1⟩ := hargs1_frame v hvne
          rw [ha, hk, ha1, hk1]
          exact ⟨rfl, rfl⟩
      · -- unprocessed nodes keep their trees
        intro w hw
        have hwu : w ≠ u := fun h => hw (h ▸ List.mem_cons_self u R')
        have hwR : w ∉ R' := fun h => hw (List.mem_cons_of_mem u h)
        obtain ⟨ha, hk⟩ := hframe_args' w hwR
        obtain ⟨ha1, hk1⟩ := hargs1_frame w hwu
        rw [ha, hk, ha1, hk1]
        exact ⟨rfl, rfl⟩
      · -- users dicts of nodes other than s, r are untouched
        intro w hws hwr
        rw [hframe_users' w hws hwr, husers1_frame w hws hwr]
      · -- final users of the replacement
        intro n
        rw [husers'_r n]
        constructor
        · rintro (h | h)
          · rcases (husers1_r n).1 h with h1 | h1
            · exact Or.inl h1
            · exact Or.inr (List.mem_cons.2 (Or.inl h1))
          · exact Or.inr (List.mem_cons_of_mem u h)
        · rintro (h | h)
          · exact Or.inl ((husers1_r n).2 (Or.inl h))
          · rcases List.mem_cons.1 h with h2 | h2
            · exact Or.inl ((husers1_r n).2 (Or.inr h2))
            · exact Or.inr h2

/-- `replace_all_uses_with` for a distinct replacement, on a well-formed
graph: completes, returns the snapshot, empties `s.users`, substitutes in
every recorded user, and leaves everything else alone. -/
theorem replace_char (st : FxState) (s r : Nat) (hWF : WF st) (hs : s ∈ st.dom)
    (hr : r ∈ st.dom) (hrs : r ≠ s) :
    ∃ st', replace_all_uses_with st s r = some (st', (st.nodes s).users) ∧
      WF st' ∧ st'.dom = st.dom ∧
      (st'.nodes s).users = [] ∧
      (∀ u ∈ (st.nodes s).users,
        (st'.nodes u).args = map_arg_seq (maybe_replace_node s r) (st.nodes u).args ∧
        (st'.nodes u).kwargs = map_arg_kw (maybe_replace_node s r) (st.nodes u).kwargs) ∧
      (∀ w, w ∉ (st.nodes s).users →
        (st'.nodes w).args = (st.nodes w).args ∧
        (st'.nodes w).kwargs = (st.nodes w).kwargs) ∧
      (∀ w, w ≠ s → w ≠ r → (st'.nodes w).users = (st.nodes w).users) ∧
      (∀ n, n ∈ (st'.nodes r).users ↔
        n ∈ (st.nodes r).users ∨ n ∈ (st.nodes s).users) := by
  obtain ⟨st', hloop, hWF', hdom', husers'_s, hproc', hframe_args', hframe_users',
    husers'_r⟩ := rauw_loop_char s r hrs (st.nodes s).users st hWF hs hr rfl
  refine ⟨st', ?_, hWF', hdom', husers'_s, hproc', hframe_args', hframe_users',
    husers'_r⟩
  simp only [replace_all_uses_with]
  rw [hloop]
  show (if (st'.nodes s).users = [] then some (st', (st.nodes s).users) else none)
      = some (st', (st.nodes s).users)
  rw [if_pos husers'_s]

/-- Any successful `replace_all_uses_with` call on a well-formed graph
preserves well-formedness and returns the users snapshot. -/
theorem WF_replace {st st' : FxState} {s r : Nat} {l : List Nat} (hWF : WF st)
    (hs : s ∈ st.dom) (hr : r ∈ st.dom)
    (h : replace_all_uses_with st s r = some (st', l)) :
    WF st' ∧ st'.dom = st.dom ∧ l = (st.nodes s).users := by
  simp only [replace_all_uses_with] at h
  cases hloop : rauw_loop s r st (st.nodes s).users with
  | none =>
      rw [hloop] at h
      have h2 : (none : Option (FxState × List Nat)) = some (st', l) := h
      exact Option.noConfusion h2
  | some st2 =>
      rw [hloop] at h
      have h3 : (if (st2.nodes s).users = [] then some (st2, (st.nodes s).users)
          else none) = some (st', l) := h
      by_cases hemp : (st2.nodes s).users = []
      · rw [if_pos hemp] at h3
        have h4 : st2 = st' ∧ (st.nodes s).users = l := by
          have := Option.some.inj h3
          exact ⟨congrArg Prod.fst this, congrArg Prod.snd this⟩
        obtain ⟨hWF2, hdom2⟩ := rauw_loop_WF s r (st.nodes s).users st st2 hWF hr
          (fun v hv => hWF.2.1 s hs v hv) hloop
        rw [← h4.1]
        exact ⟨hWF2, hdom2, h4.2.symm⟩
      · rw [if_neg hemp] at h3
        exact Option.noConfusion h3

/- The intrasequence doubly linked list. -/

/-- `v` directly follows `u` in the sequence: `u._next == v` and
`v._prev == u`. -/
def adj (st : FxState) (u v : Nat) : Prop :=
  (st.nodes u).next = v ∧ (st.nodes v).prev = u

instance adj_dec (st : FxState) (u v : Nat) : Decidable (adj st u v) := by
  unfold adj
  infer_instance

/-- The sequence threads from `u` through the nodes of `L` in order and
then reaches `v`, each step being a direct adjacency. -/
def chainFT (st : FxState) : Nat → List Nat → Nat → Prop
  | u, [], v => adj st u v
  | u, w :: ws, v => adj st u w ∧ chainFT st w ws v

instance chainFT_dec (st : FxState) : (u : Nat) → (L : List Nat) → (v : Nat) →
    Decidable (chainFT st u L v)
  | u, [], v => by
      unfold chainFT
      infer_instance
  | u, w :: ws, v => by
      unfold chainFT
      have := chainFT_dec st w ws v
      infer_instance

/-- A circular doubly linked sequence that starts at `u`, visits the
nodes of `L` in order, and wraps from the last one back to `u`. -/
def isCycle (st : FxState) (u : Nat) (L : List Nat) : Prop :=
  chainFT st u L u

instance isCycle_dec (st : FxState) (u : Nat) (L : List Nat) :
    Decidable (isCycle st u L) := chainFT_dec st u L u

theorem chainFT_append (st : FxState) (m v : Nat) :
    ∀ (u : Nat) (L1 L2 : List Nat),
      chainFT st u (L1 ++ m :: L2) v ↔ chainFT st u L1 m ∧ chainFT st m L2 v := by
  intro u L1
  induction L1 generalizing u with
  | nil =>
      intro L2
      show chainFT st u (m :: L2) v ↔ _
      rw [show chainFT st u (m :: L2) v = (adj st u m ∧ chainFT st m L2 v) from rfl]
      rw [show chainFT st u ([] : List Nat) m = adj st u m from rfl]
  | cons w ws ih =>
      intro L2
      show (adj st u w ∧ chainFT st w (ws ++ m :: L2) v) ↔
        ((adj st u w ∧ chainFT st w ws m) ∧ chainFT st m L2 v)
      rw [ih w L2]
      rw [and_assoc]

theorem chainFT_head_adj (st : FxState) :
    ∀ (u : Nat) (L : List Nat) (v : Nat), chainFT st u L v →
      adj st u ((st.nodes u).next) := by
  intro u L v h
  cases L with
  | nil =>
      have hadj : adj st u v := h
      rw [hadj.1]
      exact hadj
  | cons w ws =>
      have hadj : adj st u w := h.1
      rw [hadj.1]
      exact hadj

theorem chainFT_head_mem (st : FxState) :
    ∀ (u : Nat) (L : List Nat) (v : Nat), chainFT st u L v →
      (st.nodes u).next ∈ L ++ [v] := by
  intro u L v h
  cases L with
  | nil =>
      have hadj : adj st u v := h
      rw [hadj.1]
      exact List.mem_append.2 (Or.inr (List.mem_singleton.2 rfl))
  | cons w ws =>
      have hadj : adj st u w := h.1
      rw [hadj.1]
      exact List.mem_append.2 (Or.inl (List.mem_cons_self w ws))

theorem chainFT_last_adj (st : FxState) :
    ∀ (u : Nat) (L : List Nat) (v : Nat), chainFT st u L v →
      adj st ((st.nodes v).prev) v := by
  intro u L
  induction L generalizing u with
  | nil =>
      intro v h
      have hadj : adj st u v := h
      rw [hadj.2]
      exact hadj
  | cons w ws ih =>
      intro v h
      exact ih w v h.2

theorem chainFT_last_mem (st : FxState) :
    ∀ (u : Nat) (L : List Nat) (v : Nat), chainFT st u L v →
      (st.nodes v).prev ∈ u :: L := by
  intro u L
  induction L generalizing u with
  | nil =>
      intro v h
      have hadj : adj st u v := h
      rw [hadj.2]
      exact List.mem_cons_self u []
  | cons w ws ih =>
      intro v h
      exact List.mem_cons_of_mem u (ih w v h.2)

/-- Transfer a chain to a new state, rewiring the final edge: interior
edges must be preserved, and every old edge into `v` must become an edge
into `v'`. -/
theorem chain_transfer {st st' : FxState} {v v' : Nat} :
    ∀ (u : Nat) (L : List Nat), chainFT st u L v →
      (∀ c ∈ u :: L, ∀ d ∈ L, adj st c d → adj st' c d) →
      (∀ c ∈ u :: L, adj st c v → adj st' c v') →
      chainFT st' u L v' := by
  intro u L
  induction L generalizing u with
  | nil =>
      intro h _ hlast
      exact hlast u (List.mem_cons_self u []) h
  | cons w ws ih =>
      intro h hint hlast
      refine ⟨hint u (List.mem_cons_self u _) w (List.mem_cons_self w ws) h.1, ?_⟩
      refine ih w h.2 ?_ ?_
      · intro c hc d hd hadj
        exact hint c (List.mem_cons_of_mem u hc) d (List.mem_cons_of_mem w hd) hadj
      · intro c hc hadj
        exact hlast c (List.mem_cons_of_mem u hc) hadj

/- Pointwise evaluation of `_remove_from_list` and `splice`. -/

theorem remove_from_list_next (st : FxState) (x w : Nat) :
    ((_remove_from_list st x).nodes w).next
      = if w = (st.nodes x).prev then (st.nodes x).next else (st.nodes w).next := by
  simp only [_remove_from_list]
  by_cases hwn : w = (st.nodes x).next
  · rw [setNode_nodes, if_pos hwn]
    by_cases hnp : (st.nodes x).next = (st.nodes x).prev
    · rw [show ((setNode st ((st.nodes x).prev)
          { st.nodes ((st.nodes x).prev) with next := (st.nodes x).next }).nodes
          ((st.nodes x).next)) = { st.nodes ((st.nodes x).prev) with
            next := (st.nodes x).next } from by
          rw [setNode_nodes, if_pos hnp]]
      rw [if_pos (hwn.trans hnp)]
    · rw [setNode_nodes_ne _ _ _ hnp]
      rw [if_neg (fun h => hnp (hwn ▸ h)), hwn]
  · rw [setNode_nodes_ne _ _ _ hwn]
    by_cases hwp : w = (st.nodes x).prev
    · rw [setNode_nodes, if_pos hwp, if_pos hwp]
    · rw [setNode_nodes_ne _ _ _ hwp, if_neg hwp]

theorem remove_from_list_prev (st : FxState) (x w : Nat) :
    ((_remove_from_list st x).nodes w).prev
      = if w = (st.nodes x).next then (st.nodes x).prev else (st.nodes w).prev := by
  simp only [_remove_from_list]
  by_cases hwn : w = (st.nodes x).next
  · rw [setNode_nodes, if_pos hwn, if_pos hwn]
  · rw [setNode_nodes_ne _ _ _ hwn, if_neg hwn]
    by_cases hwp : w = (st.nodes x).prev
    · rw [setNode_nodes, if_pos hwp, hwp]
    · rw [setNode_nodes_ne _ _ _ hwp]

theorem splice_next (st1 : FxState) (selfId x w : Nat) :
    ((splice st1 selfId x).nodes w).next
      = if w = x then selfId
        else if w = (st1.nodes selfId).prev then x
        else (st1.nodes w).next := by
  simp only [splice]
  by_cases hws : w = selfId
  · rw [setNode_nodes, if_pos hws]
    by_cases hsx : selfId = x
    · rw [if_pos (hws.trans hsx)]
      rw [show (setNode (setNode (setNode st1 ((st1.nodes selfId).prev)
            { st1.nodes ((st1.nodes selfId).prev) with next := x }) x
            { (setNode st1 ((st1.nodes selfId).prev)
              { st1.nodes ((st1.nodes selfId).prev) with next := x }).nodes x with
              prev := (st1.nodes selfId).prev }) x
            { (setNode (setNode st1 ((st1.nodes selfId).prev)
              { st1.nodes ((st1.nodes selfId).prev) with next := x }) x
              { (setNode st1 ((st1.nodes selfId).prev)
                { st1.nodes ((st1.nodes selfId).prev) with next := x }).nodes x with
                prev := (st1.nodes selfId).prev }).nodes x with next := selfId }).nodes
            selfId
          = { (setNode (setNode st1 ((st1.nodes selfId).prev)
              { st1.nodes ((st1.nodes selfId).prev) with next := x }) x
              { (setNode st1 ((st1.nodes selfId).prev)
                { st1.nodes ((st1.nodes selfId).prev) with next := x }).nodes x with
                prev := (st1.nodes selfId).prev }).nodes x with next := selfId }
          from by rw [setNode_nodes, if_pos hsx]]
    · rw [setNode_nodes_ne _ _ _ hsx, setNode_nodes_ne _ _ _ hsx]
      rw [if_neg (fun h => hsx (hws ▸ h))]
      by_cases hsp : selfId = (st1.nodes selfId).prev
      · rw [setNode_nodes, if_pos hsp, if_pos (hws.trans hsp)]
      · rw [setNode_nodes_ne _ _ _ hsp]
        rw [if_neg (show ¬ w = (st1.nodes selfId).prev from
          fun h => hsp (hws.symm.trans h))]
        rw [hws]
  · rw [setNode_nodes_ne _ _ _ hws]
    by_cases hwx : w = x
    · rw [setNode_nodes, if_pos hwx, if_pos hwx]
    · rw [setNode_nodes_ne _ _ _ hwx, setNode_nodes_ne _ _ _ hwx, if_neg hwx]
      by_cases hwp : w = (st1.nodes selfId).prev
      · rw [setNode_nodes, if_pos hwp, if_pos hwp]
      · rw [setNode_nodes_ne _ _ _ hwp, if_neg hwp]

theorem splice_prev (st1 : FxState) (selfId x w : Nat) :
    ((splice st1 selfId x).nodes w).prev
      = if w = selfId then x
        else if w = x then (st1.nodes selfId).prev
        else (st1.nodes w).prev := by
  simp only [splice]
  by_cases hws : w = selfId
  · rw [setNode_nodes, if_pos hws, if_pos hws]
  · rw [setNode_nodes_ne _ _ _ hws, if_neg hws]
    by_cases hwx : w = x
    · rw [setNode_nodes, if_pos hwx, if_pos hwx]
      rw [setNode_nodes_self]
    · rw [setNode_nodes_ne _ _ _ hwx, setNode_nodes_ne _ _ _ hwx, if_neg hwx]
      by_cases hwp : w = (st1.nodes selfId).prev
      · rw [setNode_nodes, if_pos hwp, hwp]
      · rw [setNode_nodes_ne _ _ _ hwp]

theorem record_next_eta {x : Nat} (r : NodeRec) (hr : r.next = x) :
    { r with next := x } = r := by
  rw [← hr]

theorem record_prev_eta {x : Nat} (r : NodeRec) (hr : r.prev = x) :
    { r with prev := x } = r := by
  rw [← hr]

/-- Detaching a node whose two links point at itself (a fresh, never
linked node) changes nothing at all. -/
theorem remove_from_list_singleton (st : FxState) (x : Nat)
    (hp : (st.nodes x).prev = x) (hn : (st.nodes x).next = x) :
    _remove_from_list st x = st := by
  simp only [_remove_from_list]
  rw [hp, hn]
  rw [record_next_eta (st.nodes x) hn, setNode_self]
  rw [record_prev_eta (st.nodes x) hp, setNode_self]

/-- `prepend` on a circular sequence `self, r1…, x, r2…` (back to
`self`), for `x` occupying a different position than `self`: the call
completes and the sequence becomes `self, r1…, r2…, x` (back to `self`) —
`x` is gone from its old position and sits immediately before `self`,
with every other node in its original relative order. -/
theorem prepend_cycle (st : FxState) (selfId x : Nat) (r1 r2 : List Nat)
    (hcyc : isCycle st selfId (r1 ++ x :: r2))
    (hnd : (selfId :: (r1 ++ x :: r2)).Nodup)
    (hg : (st.nodes selfId).graphId = (st.nodes x).graphId) :
    prepend st selfId x = some (splice (_remove_from_list st x) selfId x) ∧
      isCycle (splice (_remove_from_list st x) selfId x) selfId (r1 ++ r2 ++ [x]) := by
  have hcyc' : chainFT st selfId (r1 ++ x :: r2) selfId := hcyc
  have hnd1 : selfId ∉ r1 ++ x :: r2 := (List.nodup_cons.1 hnd).1
  have hnd2 : (r1 ++ x :: r2).Nodup := (List.nodup_cons.1 hnd).2
  have hsr1 : selfId ∉ r1 := fun h => hnd1 (List.mem_append.2 (Or.inl h))
  have hsx : selfId ≠ x := fun h =>
    hnd1 (List.mem_append.2 (Or.inr (List.mem_cons.2 (Or.inl h))))
  have hsr2 : selfId ∉ r2 := fun h =>
    hnd1 (List.mem_append.2 (Or.inr (List.mem_cons_of_mem x h)))
  have hdisj : List.Disjoint r1 (x :: r2) := List.disjoint_of_nodup_append hnd2
  have hx_r1 : x ∉ r1 := fun h => hdisj h (List.mem_cons_self x r2)
  have hxr2nd : (x :: r2).Nodup := hnd2.of_append_right
  have hx_r2 : x ∉ r2 := (List.nodup_cons.1 hxr2nd).1
  have hr2nd : r2.Nodup := (List.nodup_cons.1 hxr2nd).2
  obtain ⟨hseg1, hseg2⟩ := (chainFT_append st x selfId selfId r1 r2).1 hcyc'
  have ha_adj : adj st ((st.nodes x).prev) x := chainFT_last_adj st selfId r1 x hseg1
  have ha_mem : (st.nodes x).prev ∈ selfId :: r1 := chainFT_last_mem st selfId r1 x hseg1
  have hb_adj : adj st x ((st.nodes x).next) := chainFT_head_adj st x r2 selfId hseg2
  have hb_mem : (st.nodes x).next ∈ r2 ++ [selfId] := chainFT_head_mem st x r2 selfId hseg2
  have hax : (st.nodes x).prev ≠ x := by
    intro h
    rw [h] at ha_mem
    rcases List.mem_cons.1 ha_mem with h1 | h1
    · exact hsx h1.symm
    · exact hx_r1 h1
  have hbx : (st.nodes x).next ≠ x := by
    intro h
    rw [h] at hb_mem
    rcases List.mem_append.1 hb_mem with h1 | h1
    · exact hx_r2 h1
    · exact hsx (List.mem_singleton.1 h1).symm
  have hpp_adj : adj st ((st.nodes selfId).prev) selfId :=
    chainFT_last_adj st selfId (r1 ++ x :: r2) selfId hcyc'
  have hrun : prepend st selfId x = some (splice (_remove_from_list st x) selfId x) := by
    rw [prepend, if_pos hg]
  refine ⟨hrun, ?_⟩
  -- abbreviations for the final state and the spliced-in predecessor
  have hp_val : ((_remove_from_list st x).nodes selfId).prev
      = if selfId = (st.nodes x).next then (st.nodes x).prev
        else (st.nodes selfId).prev := remove_from_list_prev st x selfId
  have hp_ne_x : ((_remove_from_list st x).nodes selfId).prev ≠ x := by
    rw [hp_val]
    by_cases hsb : selfId = (st.nodes x).next
    · rw [if_pos hsb]
      exact hax
    · rw [if_neg hsb]
      intro h
      rw [h] at hpp_adj
      exact hsb hpp_adj.1.symm
  have hadj_x_self : adj (splice (_remove_from_list st x) selfId x) x selfId := by
    constructor
    · rw [splice_next, if_pos rfl]
    · rw [splice_prev, if_pos rfl]
  show chainFT (splice (_remove_from_list st x) selfId x) selfId ((r1 ++ r2) ++ [x]) selfId
  refine (chainFT_append _ x selfId selfId (r1 ++ r2) []).2 ⟨?_, hadj_x_self⟩
  -- it remains to thread self, r1…, r2… ending at x
  cases r2 with
  | nil =>
      rw [List.append_nil]
      have hb_self : (st.nodes x).next = selfId := by
        rcases List.mem_append.1 hb_mem with h1 | h1
        · exact absurd h1 (List.not_mem_nil _)
        · exact List.mem_singleton.1 h1
      have hp_a : ((_remove_from_list st x).nodes selfId).prev = (st.nodes x).prev := by
        rw [hp_val, if_pos hb_self.symm]
      refine chain_transfer selfId r1 hseg1 ?_ ?_
      · intro c hc d hd hadj
        have hcx : c ≠ x := by
          intro h
          rw [h] at hc
          rcases List.mem_cons.1 hc with h1 | h1
          · exact hsx h1.symm
          · exact hx_r1 h1
        have hdx : d ≠ x := fun h => hx_r1 (h ▸ hd)
        have hds : d ≠ selfId := fun h => hsr1 (h ▸ hd)
        have hca : c ≠ (st.nodes x).prev := by
          intro h
          have : d = x := by
            rw [← hadj.1, h, ha_adj.1]
          exact hdx this
        constructor
        · rw [splice_next, if_neg hcx, hp_a, if_neg hca, remove_from_list_next,
            if_neg hca, hadj.1]
        · rw [splice_prev, if_neg hds, if_neg hdx, remove_from_list_prev,
            if_neg (fun h => hds (h.trans hb_self)), hadj.2]
      · intro c hc hadj
        have hca : c = (st.nodes x).prev := hadj.2.symm
        constructor
        · rw [splice_next, if_neg (show ¬ c = x from fun h => hax (hca.symm.trans h)),
            hp_a, if_pos hca]
        · rw [splice_prev, if_neg hsx.symm, if_pos rfl, hp_a, hca]
  | cons c r2' =>
      have hxc_adj : adj st x c := hseg2.1
      have hseg2' : chainFT st c r2' selfId := hseg2.2
      have hb_c : (st.nodes x).next = c := hxc_adj.1
      have hsb : selfId ≠ (st.nodes x).next := by
        rw [hb_c]
        intro h
        exact hsr2 (h ▸ List.mem_cons_self c r2')
      have hp_pp : ((_remove_from_list st x).nodes selfId).prev
          = (st.nodes selfId).prev := by
        rw [hp_val, if_neg hsb]
      have hpp_ne_a : (st.nodes selfId).prev ≠ (st.nodes x).prev := by
        intro h
        have h1 : (st.nodes ((st.nodes selfId).prev)).next = selfId := hpp_adj.1
        have h2 : (st.nodes ((st.nodes x).prev)).next = x := ha_adj.1
        rw [h] at h1
        rw [h1] at h2
        exact hsx h2
      refine (chainFT_append _ c x selfId r1 r2').2 ⟨?_, ?_⟩
      · -- self, r1… now ends at c (the old successor of x)
        refine chain_transfer selfId r1 hseg1 ?_ ?_
        · intro cc hcc d hd hadj
          have hccx : cc ≠ x := by
            intro h
            rw [h] at hcc
            rcases List.mem_cons.1 hcc with h1 | h1
            · exact hsx h1.symm
            · exact hx_r1 h1
          have hdx : d ≠ x := fun h => hx_r1 (h ▸ hd)
          have hds : d ≠ selfId := fun h => hsr1 (h ▸ hd)
          have hccpp : cc ≠ (st.nodes selfId).prev := by
            intro h
            have : d = selfId := by
              rw [← hadj.1, h, hpp_adj.1]
            exact hds this
          have hcca : cc ≠ (st.nodes x).prev := by
            intro h
            have : d = x := by
              rw [← hadj.1, h, ha_adj.1]
            exact hdx this
          have hdb : d ≠ (st.nodes x).next := by
            rw [hb_c]
            intro h
            exact hdisj (h ▸ hd) (List.mem_cons_of_mem x (List.mem_cons_self c r2'))
          constructor
          · rw [splice_next, if_neg hccx, hp_pp, if_neg hccpp, remove_from_list_next,
              if_neg hcca, hadj.1]
          · rw [splice_prev, if_neg hds, if_neg hdx, remove_from_list_prev,
              if_neg hdb, hadj.2]
        · intro cc hcc hadj
          have hcca : cc = (st.nodes x).prev := hadj.2.symm
          have hcs : c ≠ selfId := fun h => hsr2 (h ▸ List.mem_cons_self c r2')
          have hcx : c ≠ x := fun h => hx_r2 (h ▸ List.mem_cons_self c r2')
          constructor
          · rw [splice_next,
              if_neg (show ¬ cc = x from fun h => hax (hcca.symm.trans h)), hp_pp,
              if_neg (show ¬ cc = (st.nodes selfId).prev from
                fun h => hpp_ne_a (h.symm.trans hcca)), remove_from_list_next,
              if_pos hcca, hb_c]
          · rw [splice_prev, if_neg hcs, if_neg hcx, remove_from_list_prev,
              if_pos hb_c.symm, hcca]
      · -- c, r2'… now ends at x
        refine chain_transfer c r2' hseg2' ?_ ?_
        · intro cc hcc d hd hadj
          have hcc_r2 : cc ∈ c :: r2' := hcc
          have hccx : cc ≠ x := fun h => hx_r2 (h ▸ hcc_r2)
          have hccpp : cc ≠ (st.nodes selfId).prev := by
            intro h
            have : d = selfId := by
              rw [← hadj.1, h, hpp_adj.1]
            exact hsr2 (this ▸ List.mem_cons_of_mem c hd)
          have hcca : cc ≠ (st.nodes x).prev := by
            intro h
            have hmem : cc ∈ selfId :: r1 := h ▸ ha_mem
            rcases List.mem_cons.1 hmem with h1 | h1
            · exact hsr2 (h1 ▸ hcc_r2)
            · exact hdisj h1 (List.mem_cons_of_mem x hcc_r2)
          have hds : d ≠ selfId := fun h => hsr2 (h ▸ List.mem_cons_of_mem c hd)
          have hdx : d ≠ x := fun h => hx_r2 (h ▸ List.mem_cons_of_mem c hd)
          have hdb : d ≠ (st.nodes x).next := by
            rw [hb_c]
            intro h
            exact (List.nodup_cons.1 hr2nd).1 (h ▸ hd)
          constructor
          · rw [splice_next, if_neg hccx, hp_pp, if_neg hccpp, remove_from_list_next,
              if_neg hcca, hadj.1]
          · rw [splice_prev, if_neg hds, if_neg hdx, remove_from_list_prev,
              if_neg hdb, hadj.2]
        · intro cc hcc hadj
          have hccpp : cc = (st.nodes selfId).prev := hadj.2.symm
          constructor
          · rw [splice_next,
              if_neg (show ¬ cc = x from
                fun h => hp_ne_x (hp_pp.trans (hccpp.symm.trans h))),
              hp_pp, if_pos hccpp]
          · rw [splice_prev, if_neg hsx.symm, if_pos rfl, hp_pp, hccpp]

/- Structure preservation of `map_arg` (beyond the defining equations):
lengths of sequences and key lists of dicts are kept. -/

/-- Length of an argument sequence. -/
def arg_len : ArgList → Nat
  | .nil => 0
  | .cons _ rest => arg_len rest + 1

/-- The key list of an argument mapping, in order. -/
def kw_keys : KwList → List String
  | .nil => []
  | .cons k _ rest => k :: kw_keys rest

theorem arg_len_map_arg_seq (fn : Nat → Arg) (xs : ArgList) :
    arg_len (map_arg_seq fn xs) = arg_len xs := by
  cases xs with
  | nil => rfl
  | cons a rest =>
      show arg_len (map_arg_seq fn rest) + 1 = arg_len rest + 1
      rw [arg_len_map_arg_seq fn rest]

theorem kw_keys_map_arg_kw (fn : Nat → Arg) (kvs : KwList) :
    kw_keys (map_arg_kw fn kvs) = kw_keys kvs := by
  cases kvs with
  | nil => rfl
  | cons k v rest =>
      show k :: kw_keys (map_arg_kw fn rest) = k :: kw_keys rest
      rw [kw_keys_map_arg_kw fn rest]

/- Concrete graph states used to instantiate the theorems. -/

/-- The empty heap: no node objects exist yet. -/
def emptyState : FxState :=
  { dom := [],
    nodes := fun _ =>
      { graphId := 0, name := "", op := "root", target := .callable 0,
        args := .nil, kwargs := .nil, users := [], type := none,
        prev := 0, next := 0, erased := false } }

/-- The spec's example scenario, built through `Node.__init__`:
`P` (id 0, placeholder named "x"), then `A` (id 1, `call_function` with
`args = (P, P)`), then `Q` (id 2, placeholder). -/
def exState : FxState :=
  (((Node_init emptyState 0 0 "x" "placeholder" (.str "x") .nil .nil none).bind
      fun s1 => Node_init s1 1 0 "a" "call_function" (.callable 7)
        (.cons (.node 0) (.cons (.node 0) .nil)) .nil none).bind
      fun s2 => Node_init s2 2 0 "q" "placeholder" (.str "q") .nil .nil none).getD
    emptyState

/-- A two-node heap: node 0 (`P`) and node 1 (`A`) with `A.args = (P,)`,
hence `P.users = {A}`. -/
def twoNodeState : FxState :=
  { dom := [0, 1],
    nodes := fun n =>
      if n = 0 then
        { graphId := 0, name := "p", op := "placeholder", target := .str "p",
          args := .nil, kwargs := .nil, users := [1], type := none,
          prev := 0, next := 0, erased := false }
      else
        { graphId := 0, name := "a", op := "call_function", target := .callable 0,
          args := .cons (.node 0) .nil, kwargs := .nil, users := [], type := none,
          prev := 1, next := 1, erased := false } }

/-- A three-node circular sequence `0 → 1 → 2 → 0`, all in graph 0, with
empty argument trees. -/
def cyc3 : FxState :=
  { dom := [0, 1, 2],
    nodes := fun n =>
      { graphId := 0, name := "", op := "root", target := .callable 0,
        args := .nil, kwargs := .nil, users := [], type := none,
        prev := (n + 2) % 3, next := (n + 1) % 3, erased := false } }

/-- Walk `k` steps forward through the `_next` links starting at `n`. -/
def walk (st : FxState) : Nat → Nat → Nat
  | 0, n => n
  | k + 1, n => walk st k ((st.nodes n).next)

instance Closed_dec (st : FxState) : Decidable (Closed st) := by
  unfold Closed
  infer_instance

instance UsersClosed_dec (st : FxState) : Decidable (UsersClosed st) := by
  unfold UsersClosed
  infer_instance

instance UsersNodup_dec (st : FxState) : Decidable (UsersNodup st) := by
  unfold UsersNodup
  infer_instance

instance DefUse_dec (st : FxState) : Decidable (DefUse st) := by
  unfold DefUse
  infer_instance

instance WF_dec (st : FxState) : Decidable (WF st) := by
  unfold WF
  infer_instance

/- ------------------------------------------------------------------ -/
/- Claim theorems.                                                     -/
/- ------------------------------------------------------------------ -/

/-- C3: `_update_args_kwargs(new_args, new_kwargs)` installs the new
trees on the mutating node, erases the node from the users dict of every
def that is dropped (`old - new`), and registers it with every def that
is gained (`new - old`) — a no-op when already present, a single
appended key (count 1) when absent; users dicts of nodes outside the
symmetric difference are untouched. -/
theorem C3_update_args_kwargs (st st' : FxState) (selfId : Nat) (na : ArgList)
    (nk : KwList) (h : _update_args_kwargs st selfId na nk = some st') :
    (st'.nodes selfId).args = na ∧ (st'.nodes selfId).kwargs = nk ∧
    ∀ n,
      (n ∈ _collect_all_defs (st.nodes selfId) → n ∉ defsOfPair na nk →
        (st'.nodes n).users = ((st.nodes n).users).erase selfId) ∧
      (n ∈ defsOfPair na nk → n ∉ _collect_all_defs (st.nodes selfId) →
        (selfId ∈ (st.nodes n).users → (st'.nodes n).users = (st.nodes n).users) ∧
        (selfId ∉ (st.nodes n).users →
          (st'.nodes n).users = (st.nodes n).users ++ [selfId] ∧
          ((st'.nodes n).users).count selfId = 1)) ∧
      ((n ∈ _collect_all_defs (st.nodes selfId) ↔ n ∈ defsOfPair na nk) →
        (st'.nodes n).users = (st.nodes n).users) := by
  have hst' := update_args_kwargs_some_eq h
  refine ⟨?_, ?_, ?_⟩
  · rw [hst', update_result_args, if_pos rfl]
  · rw [hst', update_result_kwargs, if_pos rfl]
  · intro n
    refine ⟨?_, ?_, ?_⟩
    · intro h1 h2
      rw [hst', update_result_users, if_pos (mem_removedDefs.2 ⟨h1, h2⟩)]
    · intro h1 h2
      have hadd : n ∈ addedDefs st selfId na nk := mem_addedDefs.2 ⟨h1, h2⟩
      have hrem : n ∉ removedDefs st selfId na nk := fun hm =>
        h2 (mem_removedDefs.1 hm).1
      constructor
      · intro hmem
        rw [hst', update_result_users, if_neg hrem, if_pos hadd,
          setdefaultUser_of_mem hmem]
      · intro hmem
        rw [hst', update_result_users, if_neg hrem, if_pos hadd,
          setdefaultUser_of_not_mem hmem]
        refine ⟨rfl, ?_⟩
        simp [List.count_append, List.count_eq_zero.2 hmem]
    · intro hiff
      have hrem : n ∉ removedDefs st selfId na nk := fun hm =>
        (mem_removedDefs.1 hm).2 (hiff.1 (mem_removedDefs.1 hm).1)
      have hadd : n ∉ addedDefs st selfId na nk := fun hm =>
        (mem_addedDefs.1 hm).2 (hiff.2 (mem_addedDefs.1 hm).1)
      rw [hst', update_result_users, if_neg hrem, if_neg hadd]

/-- C3 witness: dropping the single def `P` of node `A` in the two-node
heap erases `A` from `P.users`. -/
theorem C3_witness :
    _update_args_kwargs twoNodeState 1 ArgList.nil KwList.nil
        = some ((_update_args_kwargs twoNodeState 1 ArgList.nil KwList.nil).getD
          twoNodeState) ∧
    ((((_update_args_kwargs twoNodeState 1 ArgList.nil KwList.nil).getD
        twoNodeState).nodes 1).args = ArgList.nil ∧
      (((_update_args_kwargs twoNodeState 1 ArgList.nil KwList.nil).getD
        twoNodeState).nodes 1).kwargs = KwList.nil ∧
      ∀ n,
        (n ∈ _collect_all_defs (twoNodeState.nodes 1) →
          n ∉ defsOfPair ArgList.nil KwList.nil →
          (((_update_args_kwargs twoNodeState 1 ArgList.nil KwList.nil).getD
            twoNodeState).nodes n).users = ((twoNodeState.nodes n).users).erase 1) ∧
        (n ∈ defsOfPair ArgList.nil KwList.nil →
          n ∉ _collect_all_defs (twoNodeState.nodes 1) →
          (1 ∈ (twoNodeState.nodes n).users →
            (((_update_args_kwargs twoNodeState 1 ArgList.nil KwList.nil).getD
              twoNodeState).nodes n).users = (twoNodeState.nodes n).users) ∧
          (1 ∉ (twoNodeState.nodes n).users →
            (((_update_args_kwargs twoNodeState 1 ArgList.nil KwList.nil).getD
              twoNodeState).nodes n).users = (twoNodeState.nodes n).users ++ [1] ∧
            ((((_update_args_kwargs twoNodeState 1 ArgList.nil KwList.nil).getD
              twoNodeState).nodes n).users).count 1 = 1)) ∧
        ((n ∈ _collect_all_defs (twoNodeState.nodes 1) ↔
            n ∈ defsOfPair ArgList.nil KwList.nil) →
          (((_update_args_kwargs twoNodeState 1 ArgList.nil KwList.nil).getD
            twoNodeState).nodes n).users = (twoNodeState.nodes n).users)) :=
  ⟨rfl, C3_update_args_kwargs twoNodeState _ 1 ArgList.nil KwList.nil rfl⟩

/-- C4 (amended): after any `_update_args_kwargs` — hence after any
`args`/`kwargs` setter assignment — the only users dicts that change are
those of nodes occurring as `Node` leaves of the old or new argument
trees; in particular the mutating node's own users dict is unchanged
whenever the node is not itself such a leaf.  (The unamended claim fails
for self-referential assignments, see the counterexample.) -/
theorem C4_update_frame (st st' : FxState) (selfId : Nat) (na : ArgList)
    (nk : KwList) (h : _update_args_kwargs st selfId na nk = some st') :
    (∀ n, n ∉ _collect_all_defs (st.nodes selfId) → n ∉ defsOfPair na nk →
      (st'.nodes n).users = (st.nodes n).users) ∧
    (selfId ∉ _collect_all_defs (st.nodes selfId) → selfId ∉ defsOfPair na nk →
      (st'.nodes selfId).users = (st.nodes selfId).users) := by
  have hst' := update_args_kwargs_some_eq h
  have hframe : ∀ n, n ∉ _collect_all_defs (st.nodes selfId) →
      n ∉ defsOfPair na nk → (st'.nodes n).users = (st.nodes n).users := by
    intro n h1 h2
    rw [hst', update_result_users, if_neg (fun hm => h1 (mem_removedDefs.1 hm).1),
      if_neg (fun hm => h2 (mem_addedDefs.1 hm).1)]
  exact ⟨hframe, hframe selfId⟩

/-- C4 witness: re-installing `A.args = (P,)` changes nobody's users
dict, and in particular not `A`'s own. -/
theorem C4_witness :
    _update_args_kwargs twoNodeState 1 (ArgList.cons (Arg.node 0) ArgList.nil)
        KwList.nil
      = some ((_update_args_kwargs twoNodeState 1
          (ArgList.cons (Arg.node 0) ArgList.nil) KwList.nil).getD twoNodeState) ∧
    ((∀ n, n ∉ _collect_all_defs (twoNodeState.nodes 1) →
        n ∉ defsOfPair (ArgList.cons (Arg.node 0) ArgList.nil) KwList.nil →
        (((_update_args_kwargs twoNodeState 1 (ArgList.cons (Arg.node 0) ArgList.nil)
          KwList.nil).getD twoNodeState).nodes n).users
          = (twoNodeState.nodes n).users) ∧
      (1 ∉ _collect_all_defs (twoNodeState.nodes 1) →
        1 ∉ defsOfPair (ArgList.cons (Arg.node 0) ArgList.nil) KwList.nil →
        (((_update_args_kwargs twoNodeState 1 (ArgList.cons (Arg.node 0) ArgList.nil)
          KwList.nil).getD twoNodeState).nodes 1).users
          = (twoNodeState.nodes 1).users)) :=
  ⟨rfl, C4_update_frame twoNodeState _ 1 (ArgList.cons (Arg.node 0) ArgList.nil)
    KwList.nil rfl⟩

/-- C4 counterexample: the claim as stated ("the mutating node's own
users set is never mutated by the call", for any new args) is false.
Assigning `A.args = (A,)` through the args setter makes `A` a def of
itself, and the call adds `A` to `A`'s own users dict: before, `A.users`
is empty; after, it is `{A}`. -/
theorem C4_counterexample :
    (twoNodeState.nodes 1).users = [] ∧
    (set_args twoNodeState 1 (ArgList.cons (Arg.node 1) ArgList.nil)).map
        (fun s => (s.nodes 1).users) = some [1] := by
  constructor
  · rfl
  · rfl

/-- C6: construction succeeds exactly when the op tag is legal and, for
`call_method`/`call_module`, the target is a string; otherwise
`Node.__init__` aborts on its assertion and produces nothing (`none`). -/
theorem C6_construction_guard (st : FxState) (newId graph : Nat) (name op : String)
    (target : Target) (args : ArgList) (kwargs : KwList) (ty : Option Nat) :
    ((Node_init st newId graph name op target args kwargs ty).isSome = true ↔
      (op ∈ legal_op_tags ∧
        ((op = "call_method" ∨ op = "call_module") → target.isStr = true))) ∧
    (¬(op ∈ legal_op_tags ∧
        ((op = "call_method" ∨ op = "call_module") → target.isStr = true)) →
      Node_init st newId graph name op target args kwargs ty = none) := by
  have hiff : (Node_init st newId graph name op target args kwargs ty).isSome = true ↔
      (op ∈ legal_op_tags ∧
        ((op = "call_method" ∨ op = "call_module") → target.isStr = true)) := by
    constructor
    · intro h
      by_cases hop : op ∈ legal_op_tags
      · refine ⟨hop, ?_⟩
        intro hcm
        by_cases htgt : target.isStr = true
        · exact htgt
        · rw [Node_init, if_pos hop, if_pos ⟨hcm, htgt⟩] at h
          simp at h
      · rw [Node_init, if_neg hop] at h
        simp at h
    · rintro ⟨hop, htgt⟩
      have htgt' : ¬((op = "call_method" ∨ op = "call_module") ∧ ¬ target.isStr) := by
        rintro ⟨hcm, hns⟩
        exact hns (htgt hcm)
      rw [Node_init_run st newId graph name op target args kwargs ty hop htgt']
      rfl
  refine ⟨hiff, ?_⟩
  intro hbad
  refine Option.not_isSome_iff_eq_none.1 ?_
  intro h
  exact hbad (hiff.1 h)

/-- C7: `map_arg` preserves structure exactly — tuples map to tuples and
lists to lists of the elementwise results (same length), dicts keep
their keys and map their values, slices map their three components
independently, a `Node` leaf becomes `fn(node)`, every other leaf is
returned unchanged — and on the spec's example
`map_arg((P, [P, 3], {"k": P}), fn = n ↦ n.name)` with `P.name = "x"`
the result is `("x", ["x", 3], {"k": "x"})`. -/
theorem C7_map_arg_structure :
    (∀ (fn : Nat → Arg) (xs : ArgList), map_arg fn (.tup xs) = .tup (map_arg_seq fn xs)) ∧
    (∀ (fn : Nat → Arg) (xs : ArgList), map_arg fn (.lst xs) = .lst (map_arg_seq fn xs)) ∧
    (∀ (fn : Nat → Arg) (xs : ArgList), arg_len (map_arg_seq fn xs) = arg_len xs) ∧
    (∀ (fn : Nat → Arg) (kvs : KwList), map_arg fn (.dict kvs) = .dict (map_arg_kw fn kvs)) ∧
    (∀ (fn : Nat → Arg) (kvs : KwList), kw_keys (map_arg_kw fn kvs) = kw_keys kvs) ∧
    (∀ (fn : Nat → Arg) (a b c : Arg),
      map_arg fn (.slice a b c) = .slice (map_arg fn a) (map_arg fn b) (map_arg fn c)) ∧
    (∀ (fn : Nat → Arg) (n : Nat), map_arg fn (.node n) = fn n) ∧
    (∀ (fn : Nat → Arg) (l : Lit), map_arg fn (.lit l) = .lit l) ∧
    map_arg (fun n => .lit (.str ((exState.nodes n).name)))
        (.tup (.cons (.node 0)
          (.cons (.lst (.cons (.node 0) (.cons (.lit (.int 3)) .nil)))
            (.cons (.dict (.cons "k" (.node 0) .nil)) .nil))))
      = .tup (.cons (.lit (.str "x"))
          (.cons (.lst (.cons (.lit (.str "x")) (.cons (.lit (.int 3)) .nil)))
            (.cons (.dict (.cons "k" (.lit (.str "x")) .nil)) .nil))) := by
  refine ⟨fun fn xs => rfl, fun fn xs => rfl, arg_len_map_arg_seq, fun fn kvs => rfl,
    kw_keys_map_arg_kw, fun fn a b c => rfl, fun fn n => rfl, fun fn l => rfl, ?_⟩
  rfl

/-- C8: re-assigning a node's current `args` (or `kwargs`) through the
property setter completes and leaves every node's users dict — indeed
the whole heap — unchanged. -/
theorem C8_idempotent_reassign (st : FxState) (selfId : Nat) :
    set_args st selfId ((st.nodes selfId).args) = some st ∧
    set_kwargs st selfId ((st.nodes selfId).kwargs) = some st ∧
    (∀ st', set_args st selfId ((st.nodes selfId).args) = some st' →
      ∀ n, (st'.nodes n).users = (st.nodes n).users) ∧
    (∀ st', set_kwargs st selfId ((st.nodes selfId).kwargs) = some st' →
      ∀ n, (st'.nodes n).users = (st.nodes n).users) := by
  have hrem : removedDefs st selfId (st.nodes selfId).args (st.nodes selfId).kwargs
      = [] := filter_not_mem_eq_nil (fun a ha => ha)
  have hadd : addedDefs st selfId (st.nodes selfId).args (st.nodes selfId).kwargs
      = [] := filter_not_mem_eq_nil (fun a ha => ha)
  have hpop : ∀ n ∈ removedDefs st selfId (st.nodes selfId).args
      (st.nodes selfId).kwargs, selfId ∈ (st.nodes n).users := by
    rw [hrem]
    intro n hn
    exact absurd hn (List.not_mem_nil n)
  have hres : update_result st selfId (st.nodes selfId).args (st.nodes selfId).kwargs
      = st := by
    refine FxState.ext' _ _ rfl ?_
    intro m
    dsimp only [update_result]
    rw [hrem, hadd, if_neg (List.not_mem_nil m), if_neg (List.not_mem_nil m)]
    by_cases hm : m = selfId
    · rw [if_pos hm, if_pos hm, hm]
    · rw [if_neg hm, if_neg hm]
  have hupd : _update_args_kwargs st selfId ((st.nodes selfId).args)
      ((st.nodes selfId).kwargs) = some st := by
    rw [update_args_kwargs_char st selfId _ _ hpop, hres]
  refine ⟨hupd, hupd, ?_, ?_⟩
  · intro st' h
    have : st' = st := Option.some.inj ((hupd.symm.trans h).symm)
    rw [this]
    intro n
    rfl
  · intro st' h
    have : st' = st := Option.some.inj ((hupd.symm.trans h).symm)
    rw [this]
    intro n
    rfl

/-- C9: when closedness and def/use symmetry hold before the call,
every dropped def already records the mutating node among its users, so
the unguarded `users.pop(self)` never sees a missing key and
`_update_args_kwargs` cannot abort. -/
theorem C9_pop_never_fails (st : FxState) (selfId : Nat) (na : ArgList) (nk : KwList)
    (hC : Closed st) (hDU : DefUse st) (hself : selfId ∈ st.dom) :
    (∀ n ∈ removedDefs st selfId na nk, selfId ∈ (st.nodes n).users) ∧
    _update_args_kwargs st selfId na nk ≠ none := by
  have hpop : ∀ n ∈ removedDefs st selfId na nk, selfId ∈ (st.nodes n).users := by
    intro n hn
    have hold := (mem_removedDefs.1 hn).1
    have hdom : n ∈ st.dom := hC selfId hself n hold
    exact (hDU n hdom selfId hself).2 hold
  refine ⟨hpop, ?_⟩
  rw [update_args_kwargs_char st selfId na nk hpop]
  exact fun h => Option.noConfusion h

/-- C9 witness: dropping the def `P` of `A` in the two-node heap, where
def/use symmetry holds, cannot abort. -/
theorem C9_witness :
    (∀ n ∈ removedDefs twoNodeState 1 ArgList.nil KwList.nil,
      1 ∈ (twoNodeState.nodes n).users) ∧
    _update_args_kwargs twoNodeState 1 ArgList.nil KwList.nil ≠ none :=
  C9_pop_never_fails twoNodeState 1 ArgList.nil KwList.nil (by decide) (by decide)
    (by decide)

/-- C10: detaching a node whose links are still the self-references
installed by construction is a complete no-op — the whole heap is
unchanged, so in particular both links still point at the node itself,
and `prepend` may safely detach a freshly constructed node. -/
theorem C10_remove_singleton (st : FxState) (x : Nat)
    (hp : (st.nodes x).prev = x) (hn : (st.nodes x).next = x) :
    _remove_from_list st x = st ∧
    ((_remove_from_list st x).nodes x).prev = x ∧
    ((_remove_from_list st x).nodes x).next = x := by
  have h := remove_from_list_singleton st x hp hn
  refine ⟨h, ?_, ?_⟩
  · rw [h]
    exact hp
  · rw [h]
    exact hn

/-- C10 witness: in the empty heap every record is a fresh singleton;
detaching node 0 changes nothing. -/
theorem C10_witness :
    _remove_from_list emptyState 0 = emptyState ∧
    ((_remove_from_list emptyState 0).nodes 0).prev = 0 ∧
    ((_remove_from_list emptyState 0).nodes 0).next = 0 :=
  C10_remove_singleton emptyState 0 rfl rfl

/-- C1: def/use symmetry — `B ∈ A.users` iff `A` occurs as a `Node` leaf
in `B.args`/`B.kwargs` — holds after construction and is preserved by
every `_update_args_kwargs` call (hence by both property setters) and by
every `replace_all_uses_with` call.  `WF` bundles the symmetry (`DefUse`)
with the auxiliary structural invariants that are automatic in Python
(arguments and users dicts refer to existing objects; dict keys are
unique) and is itself preserved. -/
theorem C1_def_use_symmetry :
    (∀ (st st' : FxState) (newId graph : Nat) (name op : String) (target : Target)
      (args : ArgList) (kwargs : KwList) (ty : Option Nat),
      WF st → newId ∉ st.dom → (∀ n ∈ defsOfPair args kwargs, n ∈ st.dom) →
      Node_init st newId graph name op target args kwargs ty = some st' →
      DefUse st' ∧ WF st') ∧
    (∀ (st st' : FxState) (selfId : Nat) (na : ArgList) (nk : KwList),
      WF st → selfId ∈ st.dom → (∀ n ∈ defsOfPair na nk, n ∈ st.dom) →
      _update_args_kwargs st selfId na nk = some st' →
      DefUse st' ∧ WF st') ∧
    (∀ (st st' : FxState) (s r : Nat) (l : List Nat),
      WF st → s ∈ st.dom → r ∈ st.dom →
      replace_all_uses_with st s r = some (st', l) →
      DefUse st' ∧ WF st') := by
  refine ⟨?_, ?_, ?_⟩
  · intro st st' newId graph name op target args kwargs ty hWF hfresh hargs h
    obtain ⟨hWF', -⟩ := WF_init hWF hfresh hargs h
    exact ⟨hWF'.2.2.2, hWF'⟩
  · intro st st' selfId na nk hWF hself hdefs h
    obtain ⟨-, hWF'⟩ := WF_update st selfId na nk hWF hself hdefs
    have heq : st' = update_result st selfId na nk := update_args_kwargs_some_eq h
    rw [heq]
    exact ⟨hWF'.2.2.2, hWF'⟩
  · intro st st' s r l hWF hs hr h
    obtain ⟨hWF', -, -⟩ := WF_replace hWF hs hr h
    exact ⟨hWF'.2.2.2, hWF'⟩

/-- C1 witness: symmetry after constructing a placeholder in the empty
heap, after dropping `A`'s arguments in the two-node heap, and after
`P.replace_all_uses_with(A)` there. -/
theorem C1_witness :
    (DefUse ((Node_init emptyState 0 0 "x" "placeholder" (.str "x")
        ArgList.nil KwList.nil none).getD emptyState) ∧
      WF ((Node_init emptyState 0 0 "x" "placeholder" (.str "x")
        ArgList.nil KwList.nil none).getD emptyState)) ∧
    (DefUse ((_update_args_kwargs twoNodeState 1 ArgList.nil KwList.nil).getD
        twoNodeState) ∧
      WF ((_update_args_kwargs twoNodeState 1 ArgList.nil KwList.nil).getD
        twoNodeState)) ∧
    (DefUse (((replace_all_uses_with twoNodeState 0 1).getD (twoNodeState, [])).1) ∧
      WF (((replace_all_uses_with twoNodeState 0 1).getD (twoNodeState, [])).1)) :=
  ⟨C1_def_use_symmetry.1 emptyState _ 0 0 "x" "placeholder" (.str "x")
      ArgList.nil KwList.nil none (by decide) (by decide)
      (fun n hn => absurd hn (List.not_mem_nil n)) rfl,
    C1_def_use_symmetry.2.1 twoNodeState _ 1 ArgList.nil KwList.nil (by decide)
      (by decide) (fun n hn => absurd hn (List.not_mem_nil n)) rfl,
    C1_def_use_symmetry.2.2 twoNodeState _ 0 1 _ (by decide) (by decide) (by decide)
      rfl⟩

/-- C2 (amended): for a replacement node `C` distinct from `A`, on a
well-formed graph with both nodes existing, `A.replace_all_uses_with(C)`
snapshots `A.users` before any mutation and returns it; afterwards
`A.users` is empty, every former user's `args`/`kwargs` are the
substitution image (same tree shape, `A`-leaves swapped to `C`, all
other values — including other `Node` leaves — untouched) of its old
trees, no other node's trees change, only `A`'s and `C`'s users dicts
change, and `C.users` holds exactly its old keys plus the snapshot.
(For `C = A` with at least one user the call instead dies on its final
`len(self.users) == 0` assertion — see the counterexample.) -/
theorem C2_replace_all_uses (st : FxState) (s r : Nat) (hWF : WF st)
    (hs : s ∈ st.dom) (hr : r ∈ st.dom) (hrs : r ≠ s) :
    ∃ st', replace_all_uses_with st s r = some (st', (st.nodes s).users) ∧
      (st'.nodes s).users = [] ∧
      (∀ u ∈ (st.nodes s).users,
        (st'.nodes u).args = map_arg_seq (maybe_replace_node s r) (st.nodes u).args ∧
        (st'.nodes u).kwargs = map_arg_kw (maybe_replace_node s r) (st.nodes u).kwargs) ∧
      (∀ w, w ∉ (st.nodes s).users →
        (st'.nodes w).args = (st.nodes w).args ∧
        (st'.nodes w).kwargs = (st.nodes w).kwargs) ∧
      (∀ w, w ≠ s → w ≠ r → (st'.nodes w).users = (st.nodes w).users) ∧
      (∀ n, n ∈ (st'.nodes r).users ↔
        n ∈ (st.nodes r).users ∨ n ∈ (st.nodes s).users) := by
  obtain ⟨st', h1, -, -, h4, h5, h6, h7, h8⟩ := replace_char st s r hWF hs hr hrs
  exact ⟨st', h1, h4, h5, h6, h7, h8⟩

/-- C2 witness: the spec's example scenario on `exState`:
`P.replace_all_uses_with(Q)` returns `[A]`, empties `P.users`, rewrites
`A.args` from `(P, P)` to `(Q, Q)`, and leaves `Q.users = {A}`. -/
theorem C2_witness :
    ∃ st', replace_all_uses_with exState 0 2 = some (st', (exState.nodes 0).users) ∧
      (st'.nodes 0).users = [] ∧
      (∀ u ∈ (exState.nodes 0).users,
        (st'.nodes u).args = map_arg_seq (maybe_replace_node 0 2) (exState.nodes u).args ∧
        (st'.nodes u).kwargs = map_arg_kw (maybe_replace_node 0 2) (exState.nodes u).kwargs) ∧
      (∀ w, w ∉ (exState.nodes 0).users →
        (st'.nodes w).args = (exState.nodes w).args ∧
        (st'.nodes w).kwargs = (exState.nodes w).kwargs) ∧
      (∀ w, w ≠ 0 → w ≠ 2 → (st'.nodes w).users = (exState.nodes w).users) ∧
      (∀ n, n ∈ (st'.nodes 2).users ↔
        n ∈ (exState.nodes 2).users ∨ n ∈ (exState.nodes 0).users) :=
  C2_replace_all_uses exState 0 2 (by decide) (by decide) (by decide) (by decide)

/-- C2 counterexample: the claim as stated quantifies over every
replacement node, including `A` itself.  In the two-node heap
`P.users = [A]`, and `P.replace_all_uses_with(P)` does not return the
snapshot: the rewrite leaves every tree unchanged, `P.users` stays
non-empty, and the final `assert len(self.users) == 0` fails (`none`). -/
theorem C2_counterexample :
    (twoNodeState.nodes 0).users = [1] ∧
    replace_all_uses_with twoNodeState 0 0 = none := by
  constructor
  · rfl
  · rfl

/-- C5 (amended): on a circular sequence `self, r1…, x, r2…` (wrapping
back to `self`) with pairwise distinct members — so for an `x` other
than `self` — `prepend(self, x)` in the same graph completes and yields
the circular sequence `self, r1…, r2…, x`: walking forward visits `x`
exactly once, immediately before `self`; `x` is gone from its old
position; all other nodes keep their relative order.  (For `x = self`
the relink corrupts the list — see the counterexample.) -/
theorem C5_prepend_relink (st : FxState) (selfId x : Nat) (r1 r2 : List Nat)
    (hcyc : isCycle st selfId (r1 ++ x :: r2))
    (hnd : (selfId :: (r1 ++ x :: r2)).Nodup)
    (hg : (st.nodes selfId).graphId = (st.nodes x).graphId) :
    ∃ st', prepend st selfId x = some st' ∧
      isCycle st' selfId (r1 ++ r2 ++ [x]) ∧
      (selfId :: (r1 ++ r2 ++ [x])).Nodup := by
  obtain ⟨hrun, hcyc'⟩ := prepend_cycle st selfId x r1 r2 hcyc hnd hg
  refine ⟨_, hrun, hcyc', ?_⟩
  have hperm : List.Perm (selfId :: (r1 ++ x :: r2)) (selfId :: (r1 ++ r2 ++ [x])) := by
    refine List.Perm.cons selfId ?_
    rw [List.append_assoc]
    exact List.Perm.append_left r1 (List.perm_append_singleton x r2).symm
  exact hperm.nodup_iff.1 hnd

/-- C5 witness: on the three-node cycle `0 → 1 → 2 → 0`, moving node 2
before node 1 yields the cycle `1, 0, 2` (i.e. `0 → 2 → 1 → 0`). -/
theorem C5_witness :
    ∃ st', prepend cyc3 1 2 = some st' ∧
      isCycle st' 1 ([0] ++ [] ++ [2]) ∧
      (1 :: ([0] ++ [] ++ [2])).Nodup :=
  C5_prepend_relink cyc3 1 2 [] [0] (by decide) (by decide) (by decide)

/-- C5 counterexample: the claim as stated includes the edge choice
`x = self`, and there it is false.  On the three-node cycle
`0 → 1 → 2 → 0`, after `prepend(0, 0)` the walk forward from node 1
reaches node 0 (`= x`) at step 2 and again at step 3: `x` is not visited
exactly once, and the sequence is corrupt (node 1 is never reached
again). -/
theorem C5_counterexample :
    isCycle cyc3 0 [1, 2] ∧
    (prepend cyc3 0 0).map (fun s => (walk s 2 1, walk s 3 1)) = some (0, 0) := by
  constructor
  · decide
  · rfl

end FxNode
